import Mathlib

/-!
Verification development for the scale-typegen repository.

We shallowly embed the three core components the specification describes:

* the structural equality engine (`types_equal` / `types_equal_inner` and the
  `GenericsList` scope chain) from `typegen/src/utils.rs`;
* the path deduplication pass (`ensure_unique_type_paths`) from the same file;
* the transform engine (`Transformer::resolve`) from
  `description/src/transformer.rs`;
* the composite-kind construction (`create_composite_ir_kind`) from
  `scale-typegen/src/typegen/mod.rs`.

Rust `u32` type IDs become `Nat` (IDs are only compared, inserted into sets and
used as indices; no arithmetic overflows them).  Rust panics (`expect`,
out-of-bounds indexing) are modelled by `Option`-valued functions returning
`none`.  `HashSet<u32>` becomes a `List Nat` used as a set, `HashMap` becomes
an association list.
-/

namespace ScaleTypegen

/-! ### Data model (scale-info portable types, as used by the repository) -/

/-- A generic type parameter: a name, optionally bound to a concrete type ID.
Mirrors `scale_info::TypeParameter<PortableForm>`. -/
structure TypeParameter where
  name : String
  ty : Option Nat
deriving DecidableEq, Repr

/-- A composite/variant field.  Mirrors `scale_info::Field<PortableForm>`. -/
structure Field where
  name : Option String
  ty : Nat
  type_name : Option String
  docs : List String
deriving DecidableEq, Repr

/-- One variant of a tagged union.  Mirrors `scale_info::Variant<PortableForm>`. -/
structure Variant where
  name : String
  fields : List Field
  index : Nat
  docs : List String
deriving DecidableEq, Repr

/-- Primitive kinds, mirroring `scale_info::TypeDefPrimitive`. -/
inductive TypeDefPrimitive where
  | bool | char | str
  | u8 | u16 | u32 | u64 | u128 | u256
  | i8 | i16 | i32 | i64 | i128 | i256
deriving DecidableEq, Repr

/-- The shape of a type, mirroring `scale_info::TypeDef<PortableForm>`. -/
inductive TypeDef where
  | composite (fields : List Field)
  | variant (variants : List Variant)
  | sequence (type_param : Nat)
  | array (len : Nat) (type_param : Nat)
  | tuple (fields : List Nat)
  | primitive (p : TypeDefPrimitive)
  | compact (type_param : Nat)
  | bitSequence (bit_store_type : Nat) (bit_order_type : Nat)
deriving DecidableEq, Repr

/-- A type node (`scale_info::Type<PortableForm>`).  `Type` is not a legal
Lean name, so we call it `Ty`.  The `path` field holds the path segments
(`ty.path.segments` in Rust). -/
structure Ty where
  path : List String
  type_params : List TypeParameter
  type_def : TypeDef
  docs : List String
deriving DecidableEq, Repr

/-- An entry of the portable registry (`scale_info::PortableType`). -/
structure PortableType where
  id : Nat
  ty : Ty
deriving DecidableEq, Repr

/-- The portable registry (`scale_info::PortableRegistry`): a vector of type
entries.  `resolve` looks an ID up by vector index, exactly as scale-info's
`PortableRegistry::resolve` does (`self.types.get(id as usize)`). -/
structure PortableRegistry where
  types : List PortableType
deriving DecidableEq, Repr

def PortableRegistry.resolve (r : PortableRegistry) (id : Nat) : Option Ty :=
  (r.types.get? id).map (·.ty)

/-- `Path::namespace()` in scale-info returns all segments but the last, so
`namespace().is_empty()` holds exactly when the path has at most one segment. -/
def nsEmpty (path : List String) : Bool :=
  path.length ≤ 1

/-! ### The generics scope chain (`mod generics_list` in `utils.rs`)

The Rust `GenericsList` is a reference-counted singly linked chain:
each link stores `start_idx`, `generics_by_id` and an optional `previous`
link.  A chain is isomorphic to the nonempty list of its links (newest
first), which is how we represent it here. -/

/-- One link of the scope chain (`GenericsListInner` minus the parent pointer). -/
structure GenericsFrame where
  start_idx : Nat
  generics_by_id : List Nat
deriving DecidableEq, Repr

/-- The scope chain, newest link first.  `GenericsList::empty()` produces one
link, so chains built by the source are never the empty list. -/
def GenericsList := List GenericsFrame

/-- Mirrors `GenericsList::new_inner`: collect the bound IDs of `params`, give
the new link a `start_idx` continuing the previous link's range, and chain it
in front of `maybe_self`. -/
def GenericsList.new_inner (maybe_self : Option GenericsList) (params : List TypeParameter) :
    GenericsList :=
  let generics_by_id := params.filterMap (fun p => p.ty)
  let start_idx : Nat :=
    match maybe_self with
    | some (f :: _) => f.start_idx + f.generics_by_id.length
    | some [] => 0
    | none => 0
  ⟨start_idx, generics_by_id⟩ :: (match maybe_self with | some l => l | none => [])

/-- Mirrors `GenericsList::empty`. -/
def GenericsList.empty : GenericsList := GenericsList.new_inner none []

/-- Mirrors `GenericsList::extend`. -/
def GenericsList.extend (l : GenericsList) (params : List TypeParameter) : GenericsList :=
  GenericsList.new_inner (some l) params

/-- Mirrors `GenericsList::index_for_type_id`: find the first link (newest
first) whose `generics_by_id` contains `type_id` and return `start_idx` plus
the position inside that link; otherwise recurse into the previous link. -/
def GenericsList.index_for_type_id : GenericsList → Nat → Option Nat
  | [], _ => none
  | f :: rest, type_id =>
    match f.generics_by_id.findIdx? (fun id => id == type_id) with
    | some i => some (f.start_idx + i)
    | none => GenericsList.index_for_type_id rest type_id

/-! ### The structural equality engine (`types_equal` / `types_equal_inner`)

The Rust function recurses with two `&mut HashSet<u32>` visited sets which are
threaded through every recursive call, so the Lean model returns the updated
sets alongside the boolean.  `none` models the `expect` panic when a type ID
does not resolve.  The Rust recursion terminates because the visited sets only
grow and recursion continues only when both current IDs were fresh; we make
this explicit with a fuel parameter whose initial value (`equality_fuel`)
dominates that bound. -/

/-- A visited set (`HashSet<u32>` in Rust). -/
def Vis := List Nat

instance : DecidableEq Vis := inferInstanceAs (DecidableEq (List Nat))

/-- Model of `HashSet::insert`, returning (was already present, updated set);
the Rust code computes `seen = !set.insert(x)`. -/
def visInsert (v : Vis) (x : Nat) : Bool × Vis :=
  if (List.contains v x : Bool) then (true, v) else (false, x :: v)

/-- The type of the recursive comparison callback threaded into the helpers
that model the Rust closures `types_equal_recurse` / `fields_equal`. -/
abbrev TeqRec := Nat → GenericsList → Vis → Nat → GenericsList → Vis → Option (Bool × Vis × Vis)

/-- Model of the `fields_equal` closure body after its length check: the
`zip`-and-`all` loop.  `&&` short-circuits in Rust, so a name or type-name
mismatch stops the loop with the visited sets as they are at that point. -/
def fields_all (rec : TeqRec) (ap bp : GenericsList) :
    List Field → List Field → Vis → Vis → Option (Bool × Vis × Vis)
  | [], _, av, bv => some (true, av, bv)
  | _ :: _, [], av, bv => some (true, av, bv)
  | f :: fs, g :: gs, av, bv =>
    if f.name = g.name ∧ f.type_name = g.type_name then
      match rec f.ty ap av g.ty bp bv with
      | none => none
      | some (false, av', bv') => some (false, av', bv')
      | some (true, av', bv') => fields_all rec ap bp fs gs av' bv'
    else some (false, av, bv)

/-- Model of the `fields_equal` closure: length check, then the pairwise loop. -/
def fields_equal (rec : TeqRec) (ap bp : GenericsList) (fa fb : List Field)
    (av bv : Vis) : Option (Bool × Vis × Vis) :=
  if fa.length = fb.length then fields_all rec ap bp fa fb av bv
  else some (false, av, bv)

/-- The per-variant loop of the `TypeDef::Variant` branch: names must match,
then the variant's fields are compared with `fields_equal`. -/
def variants_all (rec : TeqRec) (ap bp : GenericsList) :
    List Variant → List Variant → Vis → Vis → Option (Bool × Vis × Vis)
  | [], _, av, bv => some (true, av, bv)
  | _ :: _, [], av, bv => some (true, av, bv)
  | v :: vs, w :: ws, av, bv =>
    if v.name = w.name then
      match fields_equal rec ap bp v.fields w.fields av bv with
      | none => none
      | some (false, av', bv') => some (false, av', bv')
      | some (true, av', bv') => variants_all rec ap bp vs ws av' bv'
    else some (false, av, bv)

/-- The element loop of the `TypeDef::Tuple` branch. -/
def tuple_all (rec : TeqRec) (ap bp : GenericsList) :
    List Nat → List Nat → Vis → Vis → Option (Bool × Vis × Vis)
  | [], _, av, bv => some (true, av, bv)
  | _ :: _, [], av, bv => some (true, av, bv)
  | x :: xs, y :: ys, av, bv =>
    match rec x ap av y bp bv with
    | none => none
    | some (false, av', bv') => some (false, av', bv')
    | some (true, av', bv') => tuple_all rec ap bp xs ys av' bv'

/-- The shape comparison of `types_equal_inner` (its final `match` over the
two `type_def`s), with the already-extended scope chains. -/
def type_defs_equal (rec : TeqRec) (a_params b_params : GenericsList) :
    TypeDef → TypeDef → Vis → Vis → Option (Bool × Vis × Vis)
  | .composite fa, .composite fb, av, bv =>
    fields_equal rec a_params b_params fa fb av bv
  | .variant va, .variant vb, av, bv =>
    if va.length = vb.length then
      variants_all rec a_params b_params va vb av bv
    else some (false, av, bv)
  | .sequence x, .sequence y, av, bv =>
    rec x a_params av y b_params bv
  | .array la x, .array lb y, av, bv =>
    if la = lb then rec x a_params av y b_params bv
    else some (false, av, bv)
  | .tuple xs, .tuple ys, av, bv =>
    if xs.length = ys.length then
      tuple_all rec a_params b_params xs ys av bv
    else some (false, av, bv)
  | .primitive p, .primitive q, av, bv =>
    some (decide (p = q), av, bv)
  | .compact x, .compact y, av, bv =>
    rec x a_params av y b_params bv
  | .bitSequence sa oa, .bitSequence sb ob, av, bv =>
    -- The Rust code computes order_equal first, then store_equal (both
    -- always run), then conjoins them.
    (match rec oa a_params av ob b_params bv with
     | none => none
     | some (r1, av', bv') =>
       match rec sa a_params av' sb b_params bv' with
       | none => none
       | some (r2, av'', bv'') => some (r1 && r2, av'', bv''))
  | _, _, av, bv => some (false, av, bv)

/-- The `if let (Some(a_idx), Some(b_idx)) = ... { if a_idx == b_idx }` check
of `types_equal_inner`: true exactly when both IDs map to the same generic
parameter position; in every other case the caller keeps checking. -/
def same_generic_idx : Option Nat → Option Nat → Bool
  | some i, some j => decide (i = j)
  | _, _ => false

/-- Model of `types_equal_inner` from `utils.rs`.  Argument order is
(id, parent params, visited) for side a, then the same for side b, as in the
Rust signature.  The result carries the updated visited sets; `none` is the
panic of `types.resolve(..).expect(..)`.  Each recursion level consumes one
unit of fuel. -/
def types_equal_inner (reg : PortableRegistry) :
    Nat → Nat → GenericsList → Vis → Nat → GenericsList → Vis → Option (Bool × Vis × Vis)
  | 0, _, _, _, _, _, _ => none
  | fuel + 1, a, a_parent_params, a_visited, b, b_parent_params, b_visited =>
    -- IDs are the same; types must be identical.
    if a = b then some (true, a_visited, b_visited)
    else
      -- Make note of these IDs in case we recurse and see them again.
      let ia := visInsert a_visited a
      let ib := visInsert b_visited b
      let seen_a := ia.1
      let av := ia.2
      let seen_b := ib.1
      let bv := ib.2
      -- One type is recursive and the other is not; different.
      if seen_a ≠ seen_b then some (false, av, bv)
      -- Both recursive: assume all is well (checked in previous recursion).
      else if seen_a = true then some (true, av, bv)
      else
        -- Do both IDs map to the same generic param position?  If both map
        -- to indices that are equal we return true; otherwise fall through.
        if same_generic_idx (a_parent_params.index_for_type_id a)
            (b_parent_params.index_for_type_id b) then some (true, av, bv)
        else
          match reg.resolve a, reg.resolve b with
          | some a_ty, some b_ty =>
            -- Paths differ; types are not equal.
            if a_ty.path ≠ b_ty.path then some (false, av, bv)
            -- Names of type params do not line up.
            else if (a_ty.type_params.zip b_ty.type_params).any
                (fun pq => pq.1.name ≠ pq.2.name) then some (false, av, bv)
            else
              -- `calc_params` in Rust: extend both scope chains (computed
              -- lazily there, used only in the branches that need it).
              type_defs_equal
                (fun a' ap' av' b' bp' bv' =>
                  types_equal_inner reg fuel a' ap' av' b' bp' bv')
                (a_parent_params.extend a_ty.type_params)
                (b_parent_params.extend b_ty.type_params)
                a_ty.type_def b_ty.type_def av bv
          | _, _ => none

/-- All type IDs mentioned inside one type node (bound generic params plus the
IDs stored in the shape).  Only used to size the fuel below. -/
def mentioned_ids (t : Ty) : List Nat :=
  (t.type_params.filterMap (fun p => p.ty)) ++
    (match t.type_def with
     | .composite fs => fs.map (·.ty)
     | .variant vs => (vs.map (fun v => v.fields.map (·.ty))).flatten
     | .sequence x => [x]
     | .array _ x => [x]
     | .tuple xs => xs
     | .primitive _ => []
     | .compact x => [x]
     | .bitSequence s o => [s, o])

/-- Fuel dominating the depth of the Rust recursion: recursion only continues
when both current IDs were absent from their visited sets, and every ID fed to
a recursive call is stored in some registry node, so the depth is bounded by
the number of stored IDs (plus the two initial IDs). -/
def equality_fuel (r : PortableRegistry) : Nat :=
  2 + r.types.length + (r.types.map (fun t => (mentioned_ids t.ty).length)).sum

/-- Model of `types_equal(a, b, types)`: run `types_equal_inner` with two empty
visited sets and empty scope chains; `none` models the panic on an
unresolvable ID, `some` the returned boolean. -/
def types_equal (a b : Nat) (reg : PortableRegistry) : Option Bool :=
  (types_equal_inner reg (equality_fuel reg) a GenericsList.empty []
      b GenericsList.empty []).map (·.1)

/-! ### Concrete registries used by the claim-specific computations -/

/-- Shorthand for a field without name or type-name literal (as produced by
`Field::new(None, ty, None, vec![])` in the repository's tests). -/
def anonField (ty : Nat) : Field := ⟨none, ty, none, []⟩

/-- The registry of the repository's `types_equal_recursing_test`:
`NestedType<T>` wrappers whose shapes use the bound parameter at one, two and
three levels of nesting (`u32`/`bool` at IDs 0/1, `Vec` as sequences). -/
def regGenerics : PortableRegistry :=
  ⟨[ ⟨0, ⟨[], [], .primitive .u32, []⟩⟩,
     ⟨1, ⟨[], [], .primitive .bool, []⟩⟩,
     -- A = NestedType<T = u32>(u32), B = NestedType<T = bool>(bool)
     ⟨2, ⟨["my", "module", "NestedType"], [⟨"T", some 0⟩], .composite [anonField 0], []⟩⟩,
     ⟨3, ⟨["my", "module", "NestedType"], [⟨"T", some 1⟩], .composite [anonField 1], []⟩⟩,
     -- Vec<u32>, Vec<bool>
     ⟨4, ⟨[], [], .sequence 0, []⟩⟩,
     ⟨5, ⟨[], [], .sequence 1, []⟩⟩,
     -- C = NestedType<T = bool>(Vec<bool>), D = NestedType<T = u32>(Vec<u32>)
     ⟨6, ⟨["my", "module", "NestedType"], [⟨"T", some 1⟩], .composite [anonField 5], []⟩⟩,
     ⟨7, ⟨["my", "module", "NestedType"], [⟨"T", some 0⟩], .composite [anonField 4], []⟩⟩,
     -- Foo<u32>, Foo<bool> with a named field `_inner : T`
     ⟨8, ⟨["m", "Foo"], [⟨"T", some 0⟩], .composite [⟨some "_inner", 0, some "T", []⟩], []⟩⟩,
     ⟨9, ⟨["m", "Foo"], [⟨"T", some 1⟩], .composite [⟨some "_inner", 1, some "T", []⟩], []⟩⟩,
     -- Vec<Foo<u32>>, Vec<Foo<bool>>
     ⟨10, ⟨[], [], .sequence 8, []⟩⟩,
     ⟨11, ⟨[], [], .sequence 9, []⟩⟩,
     -- E = NestedType<T = bool>(Vec<Foo<bool>>), F = NestedType<T = u32>(Vec<Foo<u32>>)
     ⟨12, ⟨["my", "module", "NestedType"], [⟨"T", some 1⟩], .composite [anonField 11], []⟩⟩,
     ⟨13, ⟨["my", "module", "NestedType"], [⟨"T", some 0⟩], .composite [anonField 10], []⟩⟩ ]⟩

/-- A registry with two same-path, same-shape composites that declare a
different number of generic parameters (one vs. two). -/
def regParamCount : PortableRegistry :=
  ⟨[ ⟨0, ⟨[], [], .primitive .u32, []⟩⟩,
     ⟨1, ⟨[], [], .primitive .bool, []⟩⟩,
     ⟨2, ⟨["m", "P"], [⟨"T", some 0⟩], .composite [], []⟩⟩,
     ⟨3, ⟨["m", "P"], [⟨"T", some 0⟩, ⟨"U", some 1⟩], .composite [], []⟩⟩ ]⟩

/-! ### Claim C6: reflexivity of `types_equal` -/

theorem equality_fuel_pos (r : PortableRegistry) : 0 < equality_fuel r := by
  unfold equality_fuel; omega

theorem types_equal_inner_refl (reg : PortableRegistry) (fuel : Nat) (h : 0 < fuel)
    (x : Nat) (ap bp : GenericsList) (av bv : Vis) :
    types_equal_inner reg fuel x ap av x bp bv = some (true, av, bv) := by
  cases fuel with
  | zero => omega
  | succ n => simp [types_equal_inner]

/-- C6: `types_equal(x, x, registry)` is `true` for every ID `x` and every
registry, including registries in which `x` does not resolve: the `a == b`
short-circuit fires before any registry lookup, so the not-found panic
(modelled by `none`) is unreachable and the result is `some true`. -/
theorem C6_types_equal_reflexive (x : Nat) (reg : PortableRegistry) :
    types_equal x x reg = some true := by
  unfold types_equal
  rw [types_equal_inner_refl reg _ (equality_fuel_pos reg)]
  rfl

/-- C4: generic-position equivalence on a concrete registry mirroring the
repository's `types_equal_recursing_test`: wrappers holding `u32` versus
`bool` bound to the same declared parameter `T` are equal when the parameter
is used one, two and three nesting levels deep inside the shape. -/
theorem C4_generic_position_equivalence :
    types_equal 2 3 regGenerics = some true ∧
    types_equal 6 7 regGenerics = some true ∧
    types_equal 12 13 regGenerics = some true := by
  refine ⟨?_, ?_, ?_⟩ <;> rfl

/-- C9: `types_equal` zips the two declared generic-parameter lists, so only
the common prefix of names is compared and the lengths are never checked: in
`regParamCount`, type 2 declares one parameter and type 3 declares two, their
paths and shapes match, and they are reported equal. -/
theorem C9_param_list_lengths_not_compared :
    (regParamCount.resolve 2).map (fun t => t.type_params.length) = some 1 ∧
    (regParamCount.resolve 3).map (fun t => t.type_params.length) = some 2 ∧
    types_equal 2 3 regParamCount = some true := by
  refine ⟨rfl, rfl, rfl⟩

/-! ### Claim C5: symmetry of `types_equal`

Every step of `types_equal_inner` treats the two sides alike, so running it
with the sides swapped produces the same boolean with the two visited sets
swapped.  `mirror` expresses that swap on results. -/

def mirror : Option (Bool × Vis × Vis) → Option (Bool × Vis × Vis) :=
  Option.map (fun x => (x.1, x.2.2, x.2.1))

theorem mirror_none : mirror none = none := rfl

theorem mirror_some (r : Bool) (x y : Vis) :
    mirror (some (r, x, y)) = some (r, y, x) := rfl

/-- Symmetry of one swappable recursion callback, the hypothesis shared by all
loop lemmas below. -/
def RecSymm (rec : TeqRec) : Prop :=
  ∀ a ap av b bp bv, rec b bp bv a ap av = mirror (rec a ap av b bp bv)

theorem fields_all_symm {rec : TeqRec} (hrec : RecSymm rec) :
    ∀ (fa fb : List Field) (ap bp : GenericsList) (av bv : Vis),
      fields_all rec bp ap fb fa bv av = mirror (fields_all rec ap bp fa fb av bv) := by
  intro fa
  induction fa with
  | nil => intro fb ap bp av bv; cases fb <;> rfl
  | cons f fs ih =>
    intro fb ap bp av bv
    cases fb with
    | nil => rfl
    | cons g gs =>
      simp only [fields_all]
      by_cases hc : f.name = g.name ∧ f.type_name = g.type_name
      · have hc' : g.name = f.name ∧ g.type_name = f.type_name := ⟨hc.1.symm, hc.2.symm⟩
        rw [if_pos hc, if_pos hc', hrec]
        rcases hr : rec f.ty ap av g.ty bp bv with _ | ⟨r, av', bv'⟩
        · rfl
        · cases r
          · rfl
          · exact ih gs ap bp av' bv'
      · have hc' : ¬ (g.name = f.name ∧ g.type_name = f.type_name) := by
          intro h; exact hc ⟨h.1.symm, h.2.symm⟩
        rw [if_neg hc, if_neg hc']
        rfl

theorem fields_equal_symm {rec : TeqRec} (hrec : RecSymm rec)
    (fa fb : List Field) (ap bp : GenericsList) (av bv : Vis) :
    fields_equal rec bp ap fb fa bv av = mirror (fields_equal rec ap bp fa fb av bv) := by
  simp only [fields_equal]
  by_cases hl : fa.length = fb.length
  · rw [if_pos hl, if_pos hl.symm]
    exact fields_all_symm hrec fa fb ap bp av bv
  · rw [if_neg hl, if_neg (fun h => hl h.symm)]
    rfl

theorem variants_all_symm {rec : TeqRec} (hrec : RecSymm rec) :
    ∀ (va vb : List Variant) (ap bp : GenericsList) (av bv : Vis),
      variants_all rec bp ap vb va bv av = mirror (variants_all rec ap bp va vb av bv) := by
  intro va
  induction va with
  | nil => intro vb ap bp av bv; cases vb <;> rfl
  | cons v vs ih =>
    intro vb ap bp av bv
    cases vb with
    | nil => rfl
    | cons w ws =>
      simp only [variants_all]
      by_cases hn : v.name = w.name
      · rw [if_pos hn, if_pos hn.symm, fields_equal_symm hrec]
        rcases hr : fields_equal rec ap bp v.fields w.fields av bv with _ | ⟨r, av', bv'⟩
        · rfl
        · cases r
          · rfl
          · exact ih ws ap bp av' bv'
      · rw [if_neg hn, if_neg (fun h => hn h.symm)]
        rfl

theorem tuple_all_symm {rec : TeqRec} (hrec : RecSymm rec) :
    ∀ (xs ys : List Nat) (ap bp : GenericsList) (av bv : Vis),
      tuple_all rec bp ap ys xs bv av = mirror (tuple_all rec ap bp xs ys av bv) := by
  intro xs
  induction xs with
  | nil => intro ys ap bp av bv; cases ys <;> rfl
  | cons x xs ih =>
    intro ys ap bp av bv
    cases ys with
    | nil => rfl
    | cons y ys =>
      simp only [tuple_all]
      rw [hrec]
      rcases hr : rec x ap av y bp bv with _ | ⟨r, av', bv'⟩
      · rfl
      · cases r
        · rfl
        · exact ih ys ap bp av' bv'

theorem type_defs_equal_symm {rec : TeqRec} (hrec : RecSymm rec)
    (ap bp : GenericsList) (ad bd : TypeDef) (av bv : Vis) :
    type_defs_equal rec bp ap bd ad bv av = mirror (type_defs_equal rec ap bp ad bd av bv) := by
  cases ad <;> cases bd <;>
    simp only [type_defs_equal, mirror_some, mirror_none] <;>
    try rfl
  case composite.composite fa fb =>
    exact fields_equal_symm hrec fa fb ap bp av bv
  case variant.variant va vb =>
    by_cases hl : va.length = vb.length
    · rw [if_pos hl, if_pos hl.symm]
      exact variants_all_symm hrec va vb ap bp av bv
    · rw [if_neg hl, if_neg (fun h => hl h.symm)]
      rfl
  case sequence.sequence x y =>
    exact hrec x ap av y bp bv
  case array.array la x lb y =>
    by_cases hl : la = lb
    · rw [if_pos hl, if_pos hl.symm]
      exact hrec x ap av y bp bv
    · rw [if_neg hl, if_neg (fun h => hl h.symm)]
      rfl
  case tuple.tuple xs ys =>
    by_cases hl : xs.length = ys.length
    · rw [if_pos hl, if_pos hl.symm]
      exact tuple_all_symm hrec xs ys ap bp av bv
    · rw [if_neg hl, if_neg (fun h => hl h.symm)]
      rfl
  case primitive.primitive p q =>
    have : decide (q = p) = decide (p = q) := by
      simp only [decide_eq_decide]; exact eq_comm
    rw [this]
  case compact.compact x y =>
    exact hrec x ap av y bp bv
  case bitSequence.bitSequence sa oa sb ob =>
    rw [hrec]
    rcases h1 : rec oa ap av ob bp bv with _ | ⟨r1, av', bv'⟩
    · rfl
    · simp only [mirror_some]
      rw [hrec]
      rcases h2 : rec sa ap av' sb bp bv' with _ | ⟨r2, av'', bv''⟩
      · rfl
      · rfl

theorem zip_any_name_symm :
    ∀ (pa pb : List TypeParameter),
      ((pb.zip pa).any (fun pq => pq.1.name ≠ pq.2.name))
        = ((pa.zip pb).any (fun pq => pq.1.name ≠ pq.2.name)) := by
  intro pa
  induction pa with
  | nil => intro pb; cases pb <;> rfl
  | cons p ps ih =>
    intro pb
    cases pb with
    | nil => rfl
    | cons q qs =>
      simp only [List.zip_cons_cons, List.any_cons, ih qs]
      have : (decide (q.name ≠ p.name)) = (decide (p.name ≠ q.name)) := by
        simp only [decide_eq_decide]; exact ne_comm
      rw [this]

/-- Symmetry of the part of `types_equal_inner` from the registry lookups
onward (resolution, path/param-name guards, shape comparison). -/
theorem resolve_after_symm (reg : PortableRegistry) {rec : TeqRec} (hrec : RecSymm rec)
    (a b : Nat) (ap bp : GenericsList) (av1 bv1 : Vis) :
    (match reg.resolve b, reg.resolve a with
     | some a_ty, some b_ty =>
       if a_ty.path ≠ b_ty.path then some (false, bv1, av1)
       else if ((a_ty.type_params.zip b_ty.type_params).any
           (fun pq => pq.1.name ≠ pq.2.name)) then some (false, bv1, av1)
       else type_defs_equal rec (bp.extend a_ty.type_params) (ap.extend b_ty.type_params)
         a_ty.type_def b_ty.type_def bv1 av1
     | _, _ => none)
    = mirror (match reg.resolve a, reg.resolve b with
     | some a_ty, some b_ty =>
       if a_ty.path ≠ b_ty.path then some (false, av1, bv1)
       else if ((a_ty.type_params.zip b_ty.type_params).any
           (fun pq => pq.1.name ≠ pq.2.name)) then some (false, av1, bv1)
       else type_defs_equal rec (ap.extend a_ty.type_params) (bp.extend b_ty.type_params)
         a_ty.type_def b_ty.type_def av1 bv1
     | _, _ => none) := by
  rcases hra : reg.resolve a with _ | aty <;> rcases hrb : reg.resolve b with _ | bty <;>
    simp only [hra, hrb]
  · rfl
  · rfl
  · rfl
  · by_cases hp : aty.path = bty.path
    · rw [if_neg (show ¬ bty.path ≠ aty.path from fun hcon => hcon hp.symm),
        if_neg (show ¬ aty.path ≠ bty.path from fun hcon => hcon hp)]
      rw [zip_any_name_symm]
      by_cases hz : ((aty.type_params.zip bty.type_params).any
          (fun pq => pq.1.name ≠ pq.2.name)) = true
      · rw [if_pos hz, if_pos hz]; rfl
      · rw [if_neg hz, if_neg hz]
        exact type_defs_equal_symm hrec
          (ap.extend aty.type_params) (bp.extend bty.type_params)
          aty.type_def bty.type_def av1 bv1
    · rw [if_pos (show bty.path ≠ aty.path from fun h => hp h.symm), if_pos hp]
      rfl

theorem types_equal_inner_symm (reg : PortableRegistry) :
    ∀ (fuel : Nat) (a : Nat) (ap : GenericsList) (av : Vis)
      (b : Nat) (bp : GenericsList) (bv : Vis),
      types_equal_inner reg fuel b bp bv a ap av
        = mirror (types_equal_inner reg fuel a ap av b bp bv) := by
  intro fuel
  induction fuel with
  | zero => intro a ap av b bp bv; rfl
  | succ n ih =>
    intro a ap av b bp bv
    have hrec : RecSymm (fun a' ap' av' b' bp' bv' =>
        types_equal_inner reg n a' ap' av' b' bp' bv') := by
      intro a' ap' av' b' bp' bv'
      exact ih a' ap' av' b' bp' bv'
    simp only [types_equal_inner]
    by_cases hab : a = b
    · rw [if_pos hab, if_pos hab.symm]; rfl
    · rw [if_neg (fun h => hab h.symm), if_neg hab]
      generalize hva : visInsert av a = ia
      generalize hvb : visInsert bv b = ib
      obtain ⟨sa, av1⟩ := ia
      obtain ⟨sb, bv1⟩ := ib
      dsimp only
      cases sa <;> cases sb
      · -- both fresh: fall through past the two seen-guards
        rw [if_neg (show ¬ ((false : Bool) ≠ false) from fun h => h rfl),
          if_neg (show ¬ ((false : Bool) ≠ false) from fun h => h rfl),
          if_neg (show ¬ ((false : Bool) = true) from Bool.false_ne_true),
          if_neg (show ¬ ((false : Bool) = true) from Bool.false_ne_true)]
        rcases hga : ap.index_for_type_id a with _ | i <;>
          rcases hgb : bp.index_for_type_id b with _ | j <;>
            simp only [hga, hgb, same_generic_idx, decide_eq_true_eq]
        · rw [if_neg (show ¬ ((false : Bool) = true) from Bool.false_ne_true),
            if_neg (show ¬ ((false : Bool) = true) from Bool.false_ne_true)]
          exact resolve_after_symm reg hrec a b ap bp av1 bv1
        · rw [if_neg (show ¬ ((false : Bool) = true) from Bool.false_ne_true),
            if_neg (show ¬ ((false : Bool) = true) from Bool.false_ne_true)]
          exact resolve_after_symm reg hrec a b ap bp av1 bv1
        · rw [if_neg (show ¬ ((false : Bool) = true) from Bool.false_ne_true),
            if_neg (show ¬ ((false : Bool) = true) from Bool.false_ne_true)]
          exact resolve_after_symm reg hrec a b ap bp av1 bv1
        · by_cases hij : i = j
          · rw [if_pos hij.symm, if_pos hij]; rfl
          · rw [if_neg (fun h => hij h.symm), if_neg hij]
            exact resolve_after_symm reg hrec a b ap bp av1 bv1
      · rfl
      · rfl
      · rfl

theorem map_fst_mirror (x : Option (Bool × Vis × Vis)) :
    (mirror x).map (·.1) = x.map (·.1) := by
  rcases x with _ | ⟨r, u, v⟩ <;> rfl

/-- C5: `types_equal` is symmetric, unconditionally: swapping the two IDs
yields the same `Option Bool` (the same boolean when every ID reached
resolves, and the same panic otherwise). -/
theorem C5_types_equal_symmetric (a b : Nat) (reg : PortableRegistry) :
    types_equal a b reg = types_equal b a reg := by
  unfold types_equal
  rw [types_equal_inner_symm, map_fst_mirror]

/-! ### The path deduplication pass (`ensure_unique_type_paths`)

Phase 1 groups registry indices by path and, inside a path, by `types_equal`
(an association list models the `HashMap<&[String], Vec<Vec<u32>>>`; the
per-path renaming sets are disjoint, so the map's iteration order is
irrelevant).  Phase 2 appends the 1-based sub-group number to the final path
segment of every member of every path that has more than one sub-group.
`none` propagates the panic of `types_equal` on unresolvable IDs. -/

/-- Point update of a list at an index (the effect of
`types.types.get_mut(i)` followed by a field assignment); out-of-range
indices leave the list unchanged, which phase 1 guarantees never happens
(indices come from enumerating the very same list). -/
def modifyAt {α : Type} : List α → Nat → (α → α) → List α
  | [], _, _ => []
  | t :: ts, 0, f => f t :: ts
  | t :: ts, n + 1, f => t :: modifyAt ts n f

/-- Append `suf` to the last segment of a path (the effect of
`*name = format!("{name}{n}")` through `last_mut`); the empty path cannot
occur because empty-namespace types are filtered out in phase 1. -/
def renameLastSegment : List String → String → List String
  | [], _ => []
  | [s], suf => [s ++ suf]
  | s :: rest, suf => s :: renameLastSegment rest suf

/-- Rename one registry entry: append the decimal rendering of `n` to the
last path segment, leaving everything else in place. -/
def applySuffix (n : Nat) (t : PortableType) : PortableType :=
  { t with ty := { t.ty with path := renameLastSegment t.ty.path (Nat.repr n) } }

/-- The value type of `types_with_same_type_path_grouped_by_shape`. -/
abbrev PathGroups := List (List String × List (List Nat))

/-- The inner loop of phase 1: try to add `idx` to the first group whose
representative (`group[0]`) is `types_equal` to it; failing that, append a
fresh singleton group.  `none` models both the `types_equal` panic and the
(unreachable) `group[0]` indexing panic on an empty group. -/
def add_to_groups (reg : PortableRegistry) (idx : Nat) :
    List (List Nat) → Option (List (List Nat))
  | [] => some [[idx]]
  | [] :: _ => none
  | (h :: t) :: rest =>
    match types_equal idx h reg with
    | none => none
    | some true => some (((h :: t) ++ [idx]) :: rest)
    | some false => (add_to_groups reg idx rest).map (fun rest' => (h :: t) :: rest')

/-- The `entry(..).or_default()` update: find the association entry for
`path` (appending an empty one if absent) and add `idx` to its groups. -/
def update_assoc (reg : PortableRegistry) (path : List String) (idx : Nat) :
    PathGroups → Option PathGroups
  | [] => some [(path, [[idx]])]
  | (k, gs) :: rest =>
    if k = path then (add_to_groups reg idx gs).map (fun gs' => (k, gs') :: rest)
    else (update_assoc reg path idx rest).map (fun rest' => (k, gs) :: rest')

/-- Phase 1 of `ensure_unique_type_paths`: walk the registry by index (the
code deliberately uses the enumeration index, not `ty.id`), skipping types
whose path namespace is empty. -/
def build_groups_aux (reg : PortableRegistry) :
    List PortableType → Nat → PathGroups → Option PathGroups
  | [], _, acc => some acc
  | t :: rest, i, acc =>
    if nsEmpty t.ty.path then build_groups_aux reg rest (i + 1) acc
    else
      match update_assoc reg t.ty.path i acc with
      | none => none
      | some acc' => build_groups_aux reg rest (i + 1) acc'

def build_groups (reg : PortableRegistry) : Option PathGroups :=
  build_groups_aux reg reg.types 0 []

/-- The innermost loop of phase 2 (`for ty_id in group_with_same_shape`). -/
def rename_group : List PortableType → List Nat → Nat → List PortableType
  | tys, [], _ => tys
  | tys, j :: js, n => rename_group (modifyAt tys j (applySuffix n)) js n

/-- The middle loop of phase 2: successive sub-groups of one path get the
suffix numbers `n, n + 1, ...` (the code starts at 1). -/
def rename_groups_from : List PortableType → List (List Nat) → Nat → List PortableType
  | tys, [], _ => tys
  | tys, g :: gs, n => rename_groups_from (rename_group tys g n) gs (n + 1)

/-- Model of `ensure_unique_type_paths`: build the groups, keep only the
path entries with more than one structural sub-group, and rename their
members. -/
def ensure_unique_type_paths (reg : PortableRegistry) : Option PortableRegistry :=
  match build_groups reg with
  | none => none
  | some acc =>
    let groups_that_need_renaming :=
      (acc.map (fun kg => kg.2)).filter (fun g => 1 < g.length)
    some ⟨groups_that_need_renaming.foldl
      (fun tys gs => rename_groups_from tys gs 1) reg.types⟩

/-- The registry of the repository's `ensure_unique_type_paths_test`: six
types named `my::module::Foo` with primitive shapes Bool, Bool, U32, U128,
U128, U128 (three structural groups of sizes 2, 1, 3 in first-seen order). -/
def regDedup : PortableRegistry :=
  ⟨[ ⟨0, ⟨["my", "module", "Foo"], [], .primitive .bool, []⟩⟩,
     ⟨1, ⟨["my", "module", "Foo"], [], .primitive .bool, []⟩⟩,
     ⟨2, ⟨["my", "module", "Foo"], [], .primitive .u32, []⟩⟩,
     ⟨3, ⟨["my", "module", "Foo"], [], .primitive .u128, []⟩⟩,
     ⟨4, ⟨["my", "module", "Foo"], [], .primitive .u128, []⟩⟩,
     ⟨5, ⟨["my", "module", "Foo"], [], .primitive .u128, []⟩⟩ ]⟩

/-- C7: on the six-entry registry `regDedup` (shape groups of sizes 2, 1, 3
in first-seen order), the pass appends the suffixes 1, 1, 2, 3, 3, 3 to the
final path segment, numbering sub-groups in first-seen order. -/
theorem C7_dedup_determinism :
    (ensure_unique_type_paths regDedup).map (fun r => r.types.map (fun t => t.ty.path))
      = some [["my", "module", "Foo1"], ["my", "module", "Foo1"],
              ["my", "module", "Foo2"], ["my", "module", "Foo3"],
              ["my", "module", "Foo3"], ["my", "module", "Foo3"]] := by
  rfl

/-- A registry with two structurally identical types under the same
(non-empty) declared path: the pass leaves both untouched. -/
def regShared : PortableRegistry :=
  ⟨[ ⟨0, ⟨["m", "Foo"], [], .primitive .bool, []⟩⟩,
     ⟨1, ⟨["m", "Foo"], [], .primitive .bool, []⟩⟩ ]⟩

/-- C1 counterexample: `ensure_unique_type_paths` runs to completion on
`regShared` and leaves its two distinct entries (indices 0 and 1) sharing
the same non-empty path `m::Foo` — a single structural sub-group is never
renamed, so paths are not globally unique afterwards, refuting the claim
that after the pass no two distinct types share a path-segment sequence. -/
theorem C1_counterexample :
    (ensure_unique_type_paths regShared = some regShared ∧
      regShared.types.map (fun t => t.ty.path) = [["m", "Foo"], ["m", "Foo"]]) ∧
    ¬ (∀ r', ensure_unique_type_paths regShared = some r' →
        ∀ i j ti tj, r'.types.get? i = some ti → r'.types.get? j = some tj →
          i ≠ j → ti.ty.path ≠ [] → tj.ty.path ≠ [] → ti.ty.path ≠ tj.ty.path) := by
  refine ⟨⟨rfl, rfl⟩, fun h => ?_⟩
  exact h regShared rfl 0 1 _ _ rfl rfl (by decide) (by decide) (by decide) rfl

/-! ### Injectivity of the decimal rendering used by the renaming

`format!("{name}{n}")` appends the decimal digits of `n`; in the model this
is `name ++ Nat.repr n`.  We prove `Nat.repr` injective by parsing the digit
list back, so that distinct sub-group numbers give distinct suffixes. -/

/-- Numeric value of a decimal digit character. -/
def digitVal (c : Char) : Nat := c.toNat - 48

theorem digitVal_digitChar (d : Nat) (h : d < 10) :
    digitVal (Nat.digitChar d) = d := by
  interval_cases d <;> rfl

/-- Parse a digit list into a number, starting from accumulator `a`. -/
def valFrom (a : Nat) (L : List Char) : Nat :=
  L.foldl (fun acc c => 10 * acc + digitVal c) a

theorem valFrom_cons (a : Nat) (c : Char) (L : List Char) :
    valFrom a (c :: L) = valFrom (10 * a + digitVal c) L := rfl

theorem valFrom_toDigitsCore :
    ∀ (fuel n : Nat) (ds : List Char), n < fuel →
      valFrom 0 (Nat.toDigitsCore 10 fuel n ds) = valFrom n ds := by
  intro fuel
  induction fuel with
  | zero => intro n ds h; omega
  | succ f ih =>
    intro n ds h
    simp only [Nat.toDigitsCore]
    by_cases hz : n / 10 = 0
    · rw [if_pos hz, valFrom_cons]
      rw [digitVal_digitChar (n % 10) (Nat.mod_lt _ (by omega))]
      have hn : 10 * 0 + n % 10 = n := by omega
      rw [hn]
    · rw [if_neg hz]
      have hdec : n / 10 < n := Nat.div_lt_self (by omega) (by omega)
      rw [ih (n / 10) _ (by omega), valFrom_cons]
      rw [digitVal_digitChar (n % 10) (Nat.mod_lt _ (by omega))]
      have hn : 10 * (n / 10) + n % 10 = n := by omega
      rw [hn]

theorem nat_repr_injective {m n : Nat} (h : Nat.repr m = Nat.repr n) : m = n := by
  have hdata : (Nat.repr m).data = (Nat.repr n).data := congrArg String.data h
  have h2 : Nat.toDigits 10 m = Nat.toDigits 10 n := hdata
  calc m = valFrom 0 (Nat.toDigits 10 m) :=
        (valFrom_toDigitsCore (m + 1) m [] (Nat.lt_succ_self m)).symm
    _ = valFrom 0 (Nat.toDigits 10 n) := by rw [h2]
    _ = n := valFrom_toDigitsCore (n + 1) n [] (Nat.lt_succ_self n)

theorem string_data_append (s t : String) : (s ++ t).data = s.data ++ t.data := by
  cases s; cases t; rfl

theorem string_append_left_cancel {s t1 t2 : String} (h : s ++ t1 = s ++ t2) : t1 = t2 := by
  have hd : (s ++ t1).data = (s ++ t2).data := congrArg String.data h
  rw [string_data_append, string_data_append] at hd
  have h3 := List.append_cancel_left hd
  cases t1; cases t2
  exact congrArg String.mk h3

/-- Distinct sub-group numbers produce distinct renamed segments. -/
theorem suffix_ne (s : String) {m n : Nat} (h : m ≠ n) :
    s ++ Nat.repr m ≠ s ++ Nat.repr n := by
  intro hcon
  exact h (nat_repr_injective (string_append_left_cancel hcon))

/-! ### Point-update and renaming lemmas for the deduplication pass -/

theorem modifyAt_getElem?_ne {α : Type} :
    ∀ (l : List α) (k j : Nat) (f : α → α), j ≠ k → (modifyAt l k f)[j]? = l[j]? := by
  intro l
  induction l with
  | nil => intro k j f _; rfl
  | cons t ts ih =>
    intro k j f h
    cases k with
    | zero =>
      cases j with
      | zero => exact absurd rfl h
      | succ j' => simp [modifyAt]
    | succ k' =>
      cases j with
      | zero => simp [modifyAt]
      | succ j' =>
        simp only [modifyAt, List.getElem?_cons_succ]
        exact ih k' j' f (fun hc => h (by omega))

theorem modifyAt_getElem?_eq {α : Type} :
    ∀ (l : List α) (k : Nat) (f : α → α), (modifyAt l k f)[k]? = (l[k]?).map f := by
  intro l
  induction l with
  | nil => intro k f; rfl
  | cons t ts ih =>
    intro k f
    cases k with
    | zero => simp [modifyAt]
    | succ k' =>
      simp only [modifyAt, List.getElem?_cons_succ]
      exact ih k' f

theorem rename_group_getElem?_not_mem :
    ∀ (g : List Nat) (tys : List PortableType) (n j : Nat), j ∉ g →
      (rename_group tys g n)[j]? = tys[j]? := by
  intro g
  induction g with
  | nil => intro tys n j _; rfl
  | cons x xs ih =>
    intro tys n j h
    have hx : j ≠ x := fun hc => h (hc ▸ List.mem_cons_self x xs)
    have hxs : j ∉ xs := fun hc => h (List.mem_cons_of_mem x hc)
    simp only [rename_group]
    rw [ih _ n j hxs, modifyAt_getElem?_ne _ _ _ _ hx]

theorem rename_group_getElem?_mem :
    ∀ (g : List Nat) (tys : List PortableType) (n j : Nat), j ∈ g → g.Nodup →
      (rename_group tys g n)[j]? = (tys[j]?).map (applySuffix n) := by
  intro g
  induction g with
  | nil => intro tys n j h _; exact absurd h (List.not_mem_nil j)
  | cons x xs ih =>
    intro tys n j h hnd
    have hx : x ∉ xs := (List.nodup_cons.mp hnd).1
    have hnd' : xs.Nodup := (List.nodup_cons.mp hnd).2
    simp only [rename_group]
    rcases List.mem_cons.mp h with rfl | hjxs
    · rw [rename_group_getElem?_not_mem xs _ n j hx, modifyAt_getElem?_eq]
    · have hjx : j ≠ x := fun hc => hx (hc ▸ hjxs)
      rw [ih _ n j hjxs hnd', modifyAt_getElem?_ne _ _ _ _ hjx]

theorem rgf_getElem?_not_mem :
    ∀ (gs : List (List Nat)) (tys : List PortableType) (n j : Nat), j ∉ gs.flatten →
      (rename_groups_from tys gs n)[j]? = tys[j]? := by
  intro gs
  induction gs with
  | nil => intro tys n j _; rfl
  | cons g rest ih =>
    intro tys n j h
    rw [List.flatten_cons] at h
    have hg : j ∉ g := fun hc => h (List.mem_append.mpr (.inl hc))
    have hrest : j ∉ rest.flatten := fun hc => h (List.mem_append.mpr (.inr hc))
    simp only [rename_groups_from]
    rw [ih _ (n + 1) j hrest, rename_group_getElem?_not_mem g _ n j hg]

theorem rgf_getElem?_mem :
    ∀ (gs : List (List Nat)) (tys : List PortableType) (n m : Nat) (g : List Nat) (j : Nat),
      gs[m]? = some g → j ∈ g → gs.flatten.Nodup →
      (rename_groups_from tys gs n)[j]? = (tys[j]?).map (applySuffix (n + m)) := by
  intro gs
  induction gs with
  | nil => intro tys n m g j hm _ _; simp at hm
  | cons g0 rest ih =>
    intro tys n m g j hm hj hnd
    rw [List.flatten_cons, List.nodup_append] at hnd
    obtain ⟨hnd0, hndr, hdisj⟩ := hnd
    simp only [rename_groups_from]
    cases m with
    | zero =>
      rw [List.getElem?_cons_zero] at hm
      obtain rfl : g0 = g := by injection hm
      have hjr : j ∉ rest.flatten := fun hc => hdisj hj hc
      rw [rgf_getElem?_not_mem rest _ (n + 1) j hjr,
        rename_group_getElem?_mem g0 _ n j hj hnd0, Nat.add_zero]
    | succ m' =>
      rw [List.getElem?_cons_succ] at hm
      have hjr : j ∈ rest.flatten :=
        List.mem_flatten.mpr ⟨g, List.mem_iff_getElem?.mpr ⟨m', hm⟩, hj⟩
      have hj0 : j ∉ g0 := fun hc => hdisj hc hjr
      rw [ih _ (n + 1) m' g j hm hj hndr,
        rename_group_getElem?_not_mem g0 _ n j hj0]
      have : n + 1 + m' = n + (m' + 1) := by omega
      rw [this]

/-- All IDs touched by phase 2. -/
def allRenameIds (need : List (List (List Nat))) : List Nat :=
  (need.map List.flatten).flatten

theorem fold_rename_getElem?_not_mem :
    ∀ (need : List (List (List Nat))) (tys : List PortableType) (j : Nat),
      j ∉ allRenameIds need →
      (need.foldl (fun tys gs => rename_groups_from tys gs 1) tys)[j]? = tys[j]? := by
  intro need
  induction need with
  | nil => intro tys j _; rfl
  | cons gs rest ih =>
    intro tys j h
    simp only [allRenameIds, List.map_cons, List.flatten_cons] at h
    have hgs : j ∉ gs.flatten := fun hc => h (List.mem_append.mpr (.inl hc))
    have hrest : j ∉ allRenameIds rest := fun hc => h (List.mem_append.mpr (.inr hc))
    simp only [List.foldl_cons]
    rw [ih _ j hrest, rgf_getElem?_not_mem gs _ 1 j hgs]

theorem fold_rename_getElem?_mem :
    ∀ (need : List (List (List Nat))) (tys : List PortableType) (t : Nat)
      (gs : List (List Nat)) (m : Nat) (g : List Nat) (j : Nat),
      need[t]? = some gs → gs[m]? = some g → j ∈ g → (allRenameIds need).Nodup →
      (need.foldl (fun tys gs => rename_groups_from tys gs 1) tys)[j]?
        = (tys[j]?).map (applySuffix (1 + m)) := by
  intro need
  induction need with
  | nil => intro tys t gs m g j ht _ _ _; simp at ht
  | cons gs0 rest ih =>
    intro tys t gs m g j ht hm hj hnd
    simp only [allRenameIds, List.map_cons, List.flatten_cons, List.nodup_append] at hnd
    obtain ⟨hnd0, hndr, hdisj⟩ := hnd
    simp only [List.foldl_cons]
    cases t with
    | zero =>
      rw [List.getElem?_cons_zero] at ht
      obtain rfl : gs0 = gs := by injection ht
      have hjgs : j ∈ gs0.flatten :=
        List.mem_flatten.mpr ⟨g, List.mem_iff_getElem?.mpr ⟨m, hm⟩, hj⟩
      have hjr : j ∉ allRenameIds rest := fun hc => hdisj hjgs hc
      rw [fold_rename_getElem?_not_mem rest _ j hjr,
        rgf_getElem?_mem gs0 _ 1 m g j hm hj hnd0]
    | succ t' =>
      rw [List.getElem?_cons_succ] at ht
      have hjgs : j ∈ allRenameIds rest := by
        have h1 : List.flatten gs ∈ rest.map List.flatten :=
          List.mem_map.mpr ⟨gs, List.mem_iff_getElem?.mpr ⟨t', ht⟩, rfl⟩
        have h2 : j ∈ List.flatten gs :=
          List.mem_flatten.mpr ⟨g, List.mem_iff_getElem?.mpr ⟨m, hm⟩, hj⟩
        exact List.mem_flatten.mpr ⟨List.flatten gs, h1, h2⟩
      have hj0 : j ∉ gs0.flatten := fun hc => hdisj hc hjgs
      rw [ih _ t' gs m g j ht hm hj hndr, rgf_getElem?_not_mem gs0 _ 1 j hj0]

/-- Two positions of a flatten-`Nodup` list of lists cannot share an element. -/
theorem flatten_nodup_position {β : Type} :
    ∀ (L : List (List β)), L.flatten.Nodup →
      ∀ (p q : Nat) (lp lq : List β), L[p]? = some lp → L[q]? = some lq → p ≠ q →
        ∀ j, j ∈ lp → j ∈ lq → False := by
  intro L
  induction L with
  | nil => intro _ p q lp lq hp _ _ _ _ _; simp at hp
  | cons l rest ih =>
    intro hnd p q lp lq hp hq hpq j hjp hjq
    rw [List.flatten_cons, List.nodup_append] at hnd
    obtain ⟨_, hndr, hdisj⟩ := hnd
    cases p with
    | zero =>
      rw [List.getElem?_cons_zero] at hp
      obtain rfl : l = lp := by injection hp
      cases q with
      | zero => exact hpq rfl
      | succ q' =>
        rw [List.getElem?_cons_succ] at hq
        exact hdisj hjp (List.mem_flatten.mpr ⟨lq, List.mem_iff_getElem?.mpr ⟨q', hq⟩, hjq⟩)
    | succ p' =>
      rw [List.getElem?_cons_succ] at hp
      cases q with
      | zero =>
        rw [List.getElem?_cons_zero] at hq
        obtain rfl : l = lq := by injection hq
        exact hdisj hjq (List.mem_flatten.mpr ⟨lp, List.mem_iff_getElem?.mpr ⟨p', hp⟩, hjp⟩)
      | succ q' =>
        rw [List.getElem?_cons_succ] at hq
        exact ih hndr p' q' lp lq hp hq (fun hc => hpq (by omega)) j hjp hjq

/-! ### Phase-1 invariants of the deduplication pass

All indices collected by `build_groups` are pairwise distinct (each index is
processed exactly once), every collected index resolves in the registry to a
type whose path is the entry's key, and every key has a non-empty namespace. -/

/-- All IDs stored in a `PathGroups` association list. -/
def accIds (acc : PathGroups) : List Nat :=
  (acc.map (fun kg => kg.2.flatten)).flatten

/-- Entry soundness: keys have non-empty namespaces, and every collected
index resolves to a type whose path equals its key. -/
def EntryInv (reg : PortableRegistry) (acc : PathGroups) : Prop :=
  ∀ kg ∈ acc, nsEmpty kg.1 = false ∧
    ∀ g ∈ kg.2, ∀ j ∈ g, ∃ t, reg.types[j]? = some t ∧ t.ty.path = kg.1

theorem accIds_cons (k : List String) (gs : List (List Nat)) (rest : PathGroups) :
    accIds ((k, gs) :: rest) = gs.flatten ++ accIds rest := by
  simp [accIds]

theorem add_to_groups_flatten_perm (reg : PortableRegistry) (idx : Nat) :
    ∀ (gs gs' : List (List Nat)), add_to_groups reg idx gs = some gs' →
      List.Perm gs'.flatten (idx :: gs.flatten) := by
  intro gs
  induction gs with
  | nil =>
    intro gs' h
    simp only [add_to_groups, Option.some.injEq] at h
    subst h
    simp
  | cons g rest ih =>
    intro gs' h
    cases g with
    | nil => simp [add_to_groups] at h
    | cons hd tl =>
      simp only [add_to_groups] at h
      rcases hte : types_equal idx hd reg with _ | b
      · rw [hte] at h; simp at h
      · rw [hte] at h
        cases b with
        | true =>
          simp only [Option.some.injEq] at h
          subst h
          rw [List.flatten_cons, List.append_assoc]
          exact List.perm_middle
        | false =>
          rcases hr : add_to_groups reg idx rest with _ | rest'
          · rw [hr] at h; simp at h
          · rw [hr] at h
            simp only [Option.map_some', Option.some.injEq] at h
            subst h
            rw [List.flatten_cons, List.flatten_cons]
            exact (List.Perm.append_left _ (ih rest' hr)).trans List.perm_middle

theorem add_to_groups_entries (reg : PortableRegistry) (idx : Nat) (Q : Nat → Prop) :
    ∀ (gs gs' : List (List Nat)), add_to_groups reg idx gs = some gs' →
      (∀ g ∈ gs, ∀ j ∈ g, Q j) → Q idx → ∀ g ∈ gs', ∀ j ∈ g, Q j := by
  intro gs
  induction gs with
  | nil =>
    intro gs' h hold hidx
    simp only [add_to_groups, Option.some.injEq] at h
    subst h
    intro g hg j hj
    simp only [List.mem_singleton] at hg
    subst hg
    simp only [List.mem_singleton] at hj
    subst hj
    exact hidx
  | cons g rest ih =>
    intro gs' h hold hidx
    cases g with
    | nil => simp [add_to_groups] at h
    | cons hd tl =>
      simp only [add_to_groups] at h
      rcases hte : types_equal idx hd reg with _ | b
      · rw [hte] at h; simp at h
      · rw [hte] at h
        cases b with
        | true =>
          simp only [Option.some.injEq] at h
          subst h
          intro g' hg' j hj
          rcases List.mem_cons.mp hg' with rfl | hg'r
          · rcases List.mem_append.mp hj with hj1 | hj2
            · exact hold _ (List.mem_cons_self _ _) j hj1
            · simp only [List.mem_singleton] at hj2
              subst hj2
              exact hidx
          · exact hold _ (List.mem_cons_of_mem _ hg'r) j hj
        | false =>
          rcases hr : add_to_groups reg idx rest with _ | rest'
          · rw [hr] at h; simp at h
          · rw [hr] at h
            simp only [Option.map_some', Option.some.injEq] at h
            subst h
            intro g' hg' j hj
            rcases List.mem_cons.mp hg' with rfl | hg'r
            · exact hold _ (List.mem_cons_self _ _) j hj
            · exact ih rest' hr (fun g hg => hold g (List.mem_cons_of_mem _ hg)) hidx g' hg'r j hj

theorem update_assoc_accIds_perm (reg : PortableRegistry) (p : List String) (idx : Nat) :
    ∀ (acc acc' : PathGroups), update_assoc reg p idx acc = some acc' →
      List.Perm (accIds acc') (idx :: accIds acc) := by
  intro acc
  induction acc with
  | nil =>
    intro acc' h
    simp only [update_assoc, Option.some.injEq] at h
    subst h
    simp [accIds]
  | cons kg rest ih =>
    intro acc' h
    obtain ⟨k, gs⟩ := kg
    simp only [update_assoc] at h
    by_cases hk : k = p
    · rw [if_pos hk] at h
      rcases hg : add_to_groups reg idx gs with _ | gs'
      · rw [hg] at h; simp at h
      · rw [hg] at h
        simp only [Option.map_some', Option.some.injEq] at h
        subst h
        rw [accIds_cons, accIds_cons]
        exact List.Perm.append_right _ (add_to_groups_flatten_perm reg idx gs gs' hg)
    · rw [if_neg hk] at h
      rcases hr : update_assoc reg p idx rest with _ | rest'
      · rw [hr] at h; simp at h
      · rw [hr] at h
        simp only [Option.map_some', Option.some.injEq] at h
        subst h
        rw [accIds_cons, accIds_cons]
        exact (List.Perm.append_left _ (ih rest' hr)).trans List.perm_middle

theorem update_assoc_entries (reg : PortableRegistry) (p : List String) (idx : Nat)
    (t : PortableType) (ht : reg.types[idx]? = some t) (hp : t.ty.path = p)
    (hns : nsEmpty p = false) :
    ∀ (acc acc' : PathGroups), update_assoc reg p idx acc = some acc' →
      EntryInv reg acc → EntryInv reg acc' := by
  intro acc
  induction acc with
  | nil =>
    intro acc' h _
    simp only [update_assoc, Option.some.injEq] at h
    subst h
    intro kg hkg
    simp only [List.mem_singleton] at hkg
    subst hkg
    refine ⟨hns, ?_⟩
    intro g hg j hj
    simp only [List.mem_singleton] at hg
    subst hg
    simp only [List.mem_singleton] at hj
    subst hj
    exact ⟨t, ht, hp⟩
  | cons kg0 rest ih =>
    intro acc' h hinv
    obtain ⟨k, gs⟩ := kg0
    simp only [update_assoc] at h
    by_cases hk : k = p
    · rw [if_pos hk] at h
      rcases hg : add_to_groups reg idx gs with _ | gs'
      · rw [hg] at h; simp at h
      · rw [hg] at h
        simp only [Option.map_some', Option.some.injEq] at h
        subst h
        intro kg hkg
        rcases List.mem_cons.mp hkg with rfl | hkgr
        · refine ⟨hk ▸ hns, ?_⟩
          intro g' hg' j hj
          refine add_to_groups_entries reg idx
            (fun j => ∃ t', reg.types[j]? = some t' ∧ t'.ty.path = k)
            gs gs' hg ?_ ⟨t, ht, hk ▸ hp⟩ g' hg' j hj
          exact fun g hgm j hjm => (hinv (k, gs) (List.mem_cons_self _ _)).2 g hgm j hjm
        · exact hinv kg (List.mem_cons_of_mem _ hkgr)
    · rw [if_neg hk] at h
      rcases hr : update_assoc reg p idx rest with _ | rest'
      · rw [hr] at h; simp at h
      · rw [hr] at h
        simp only [Option.map_some', Option.some.injEq] at h
        subst h
        intro kg hkg
        rcases List.mem_cons.mp hkg with rfl | hkgr
        · exact hinv (k, gs) (List.mem_cons_self _ _)
        · exact ih rest' hr (fun kg' hkg' => hinv kg' (List.mem_cons_of_mem _ hkg')) kg hkgr

theorem build_groups_aux_inv (reg : PortableRegistry) :
    ∀ (ts : List PortableType) (i : Nat) (acc acc' : PathGroups),
      reg.types.drop i = ts → build_groups_aux reg ts i acc = some acc' →
      (∀ j ∈ accIds acc, j < i) → (accIds acc).Nodup → EntryInv reg acc →
      (∀ j ∈ accIds acc', j < i + ts.length) ∧ (accIds acc').Nodup ∧ EntryInv reg acc' := by
  intro ts
  induction ts with
  | nil =>
    intro i acc acc' _ h hb hnd hinv
    simp only [build_groups_aux, Option.some.injEq] at h
    subst h
    exact ⟨fun j hj => by have := hb j hj; omega, hnd, hinv⟩
  | cons t rest ih =>
    intro i acc acc' hdrop h hb hnd hinv
    have hti : reg.types[i]? = some t := by
      have h0 : (reg.types.drop i)[0]? = some t := by rw [hdrop]; simp
      rw [List.getElem?_drop] at h0
      simpa using h0
    have hdrop' : reg.types.drop (i + 1) = rest := by
      have h1 : List.drop 1 (List.drop i reg.types) = List.drop (i + 1) reg.types :=
        List.drop_drop 1 i reg.types
      rw [← h1, hdrop]
      rfl
    simp only [build_groups_aux] at h
    by_cases hns : nsEmpty t.ty.path = true
    · rw [if_pos hns] at h
      have hres := ih (i + 1) acc acc' hdrop' h
        (fun j hj => by have := hb j hj; omega) hnd hinv
      refine ⟨fun j hj => ?_, hres.2.1, hres.2.2⟩
      have := hres.1 j hj
      simp only [List.length_cons]
      omega
    · rw [if_neg hns] at h
      rcases hu : update_assoc reg t.ty.path i acc with _ | acc''
      · rw [hu] at h; simp at h
      · rw [hu] at h
        have hperm := update_assoc_accIds_perm reg t.ty.path i acc acc'' hu
        have hb'' : ∀ j ∈ accIds acc'', j < i + 1 := by
          intro j hj
          rcases List.mem_cons.mp (hperm.mem_iff.mp hj) with rfl | hmem
          · omega
          · have := hb j hmem; omega
        have hnd'' : (accIds acc'').Nodup := by
          have hi : i ∉ accIds acc := fun hc => absurd (hb i hc) (lt_irrefl i)
          exact List.Perm.nodup hperm.symm (List.nodup_cons.mpr ⟨hi, hnd⟩)
        have hns' : nsEmpty t.ty.path = false := by
          revert hns; cases nsEmpty t.ty.path <;> simp
        have hinv'' : EntryInv reg acc'' :=
          update_assoc_entries reg t.ty.path i t hti rfl hns' acc acc'' hu hinv
        have hres := ih (i + 1) acc'' acc' hdrop' h hb'' hnd'' hinv''
        refine ⟨fun j hj => ?_, hres.2.1, hres.2.2⟩
        have := hres.1 j hj
        simp only [List.length_cons]
        omega

theorem build_groups_inv (reg : PortableRegistry) (acc : PathGroups)
    (h : build_groups reg = some acc) :
    (∀ j ∈ accIds acc, j < reg.types.length) ∧ (accIds acc).Nodup ∧ EntryInv reg acc := by
  have hres := build_groups_aux_inv reg reg.types 0 [] acc rfl h
    (fun j hj => by simp [accIds] at hj) (by simp [accIds])
    (fun kg hkg => absurd hkg (List.not_mem_nil kg))
  exact ⟨fun j hj => by have := hres.1 j hj; omega, hres.2.1, hres.2.2⟩

theorem sublist_flatten {β : Type} {L1 L2 : List (List β)} (h : L1.Sublist L2) :
    L1.flatten.Sublist L2.flatten := by
  induction h with
  | slnil => exact List.Sublist.refl _
  | cons a _ ih =>
    rw [List.flatten_cons]
    exact ih.trans (List.sublist_append_right a _)
  | cons₂ a _ ih =>
    rw [List.flatten_cons, List.flatten_cons]
    exact ih.append_left a

theorem allRenameIds_need_nodup (acc : PathGroups) (hnd : (accIds acc).Nodup) :
    (allRenameIds ((acc.map (fun kg => kg.2)).filter (fun g => 1 < g.length))).Nodup := by
  have h1 : ((acc.map (fun kg => kg.2)).filter (fun g => 1 < g.length)).Sublist
      (acc.map (fun kg => kg.2)) := List.filter_sublist _
  have h3 := sublist_flatten (List.Sublist.map List.flatten h1)
  have h4 : (acc.map (fun kg => kg.2)).map List.flatten
      = acc.map (fun kg => kg.2.flatten) := by
    rw [List.map_map]; rfl
  rw [h4] at h3
  exact List.Nodup.sublist h3 hnd

theorem renameLastSegment_append :
    ∀ (init : List String) (last suf : String),
      renameLastSegment (init ++ [last]) suf = init ++ [last ++ suf] := by
  intro init
  induction init with
  | nil => intro last suf; rfl
  | cons s rest ih =>
    intro last suf
    cases rest with
    | nil => rfl
    | cons r rs =>
      show s :: renameLastSegment ((r :: rs) ++ [last]) suf = s :: ((r :: rs) ++ [last ++ suf])
      rw [ih]

theorem ensure_eq_fold (reg : PortableRegistry) (acc : PathGroups)
    (hb : build_groups reg = some acc) :
    ensure_unique_type_paths reg = some ⟨((acc.map (fun kg => kg.2)).filter
      (fun g => 1 < g.length)).foldl
        (fun tys gs => rename_groups_from tys gs 1) reg.types⟩ := by
  unfold ensure_unique_type_paths
  rw [hb]

/-- Unpack membership in the renaming work-list back to an `acc` entry. -/
theorem mem_allRenameIds_elim (acc : PathGroups) (j : Nat)
    (hj : j ∈ allRenameIds ((acc.map (fun kg => kg.2)).filter (fun g => 1 < g.length))) :
    ∃ kg, kg ∈ acc ∧ 1 < kg.2.length ∧ j ∈ kg.2.flatten := by
  obtain ⟨fl, hfl, hjfl⟩ := List.mem_flatten.mp hj
  obtain ⟨gs, hgsneed, rfl⟩ := List.mem_map.mp hfl
  obtain ⟨hgsmap, hlen⟩ := List.mem_filter.mp hgsneed
  obtain ⟨kg, hkg, hsnd⟩ := List.mem_map.mp hgsmap
  refine ⟨kg, hkg, ?_, ?_⟩
  · rw [hsnd]; exact of_decide_eq_true hlen
  · rw [hsnd]; exact hjfl

/-- Types whose path namespace is empty are never collected in phase 1, so
the pass leaves them untouched. -/
theorem ensure_ns_empty_untouched (reg r' : PortableRegistry) (acc : PathGroups)
    (hb : build_groups reg = some acc)
    (he : ensure_unique_type_paths reg = some r') :
    ∀ (j : Nat) (t : PortableType), reg.types[j]? = some t →
      nsEmpty t.ty.path = true → r'.types[j]? = some t := by
  have h2 := (ensure_eq_fold reg acc hb).symm.trans he
  have hr : r'.types = ((acc.map (fun kg => kg.2)).filter (fun g => 1 < g.length)).foldl
      (fun tys gs => rename_groups_from tys gs 1) reg.types := by
    injection h2 with h3
    rw [← h3]
  obtain ⟨hbound, hnd, hinv⟩ := build_groups_inv reg acc hb
  intro j t hjt hns
  have hjmem : j ∉ allRenameIds
      ((acc.map (fun kg => kg.2)).filter (fun g => 1 < g.length)) := by
    intro hc
    obtain ⟨kg, hkg, _, hjfl⟩ := mem_allRenameIds_elim acc j hc
    obtain ⟨g, hgmem, hjg⟩ := List.mem_flatten.mp hjfl
    obtain ⟨hnsk, hall⟩ := hinv kg hkg
    obtain ⟨t0, ht0, hpath⟩ := hall g hgmem j hjg
    have ht0t : t0 = t := by rw [ht0] at hjt; injection hjt
    subst ht0t
    rw [hpath, hnsk] at hns
    exact Bool.false_ne_true hns
  rw [hr, fold_rename_getElem?_not_mem _ reg.types j hjmem, hjt]

/-- C10: the pass only ever appends a decimal suffix (a 1-based sub-group
number) to the final path segment; ids, shapes, generic parameters, docs and
all non-final path segments survive unchanged; empty-namespace types and the
members of every path entry with a single structural sub-group are untouched. -/
theorem C10_frame_effect (reg r' : PortableRegistry) (acc : PathGroups)
    (hb : build_groups reg = some acc)
    (he : ensure_unique_type_paths reg = some r') :
    (∀ (j : Nat) (t : PortableType), reg.types[j]? = some t →
      ∃ t' : PortableType, r'.types[j]? = some t' ∧ t'.id = t.id ∧
        t'.ty.type_def = t.ty.type_def ∧
        t'.ty.type_params = t.ty.type_params ∧ t'.ty.docs = t.ty.docs ∧
        (t'.ty.path = t.ty.path ∨
          ∃ (n : Nat) (init : List String) (last : String), 1 ≤ n ∧
            t.ty.path = init ++ [last] ∧
            t'.ty.path = init ++ [last ++ Nat.repr n])) ∧
    (∀ (j : Nat) (t : PortableType), reg.types[j]? = some t →
      nsEmpty t.ty.path = true → r'.types[j]? = some t) ∧
    (∀ (k : List String) (gs : List (List Nat)), (k, gs) ∈ acc → gs.length ≤ 1 →
      ∀ g : List Nat, g ∈ gs → ∀ j : Nat, j ∈ g → r'.types[j]? = reg.types[j]?) := by
  have h2 := (ensure_eq_fold reg acc hb).symm.trans he
  have hr : r'.types = ((acc.map (fun kg => kg.2)).filter (fun g => 1 < g.length)).foldl
      (fun tys gs => rename_groups_from tys gs 1) reg.types := by
    injection h2 with h3
    rw [← h3]
  obtain ⟨hbound, hnd, hinv⟩ := build_groups_inv reg acc hb
  have hndneed := allRenameIds_need_nodup acc hnd
  refine ⟨?_, ?_, ?_⟩
  · -- every entry is unchanged or suffix-renamed
    intro j t hjt
    by_cases hjmem : j ∈ allRenameIds
        ((acc.map (fun kg => kg.2)).filter (fun g => 1 < g.length))
    · obtain ⟨fl, hfl, hjfl⟩ := List.mem_flatten.mp hjmem
      obtain ⟨gs, hgsneed, rfl⟩ := List.mem_map.mp hfl
      obtain ⟨tpos, htpos⟩ := List.mem_iff_getElem?.mp hgsneed
      obtain ⟨g, hgmem, hjg⟩ := List.mem_flatten.mp hjfl
      obtain ⟨m, hm⟩ := List.mem_iff_getElem?.mp hgmem
      have hres := fold_rename_getElem?_mem _ reg.types tpos gs m g j htpos hm hjg hndneed
      have hjt' : r'.types[j]? = some (applySuffix (1 + m) t) := by
        rw [hr, hres, hjt]; rfl
      refine ⟨applySuffix (1 + m) t, hjt', rfl, rfl, rfl, rfl, Or.inr ?_⟩
      -- recover the entry this index belongs to, for the path decomposition
      obtain ⟨hgsmap, _⟩ := List.mem_filter.mp hgsneed
      obtain ⟨kg, hkg, hsnd⟩ := List.mem_map.mp hgsmap
      obtain ⟨hnsk, hall⟩ := hinv kg hkg
      obtain ⟨t0, ht0, hpath⟩ := hall g (hsnd ▸ hgmem) j hjg
      have ht0t : t0 = t := by rw [ht0] at hjt; injection hjt
      subst ht0t
      have hk_ne : kg.1 ≠ [] := by
        intro hc
        rw [hc] at hnsk
        simp [nsEmpty] at hnsk
      refine ⟨1 + m, kg.1.dropLast, kg.1.getLast hk_ne, by omega, ?_, ?_⟩
      · rw [hpath, List.dropLast_append_getLast]
      · show renameLastSegment t0.ty.path (Nat.repr (1 + m)) = _
        rw [hpath]
        conv_lhs => rw [← List.dropLast_append_getLast hk_ne]
        rw [renameLastSegment_append]
    · have hres := fold_rename_getElem?_not_mem _ reg.types j hjmem
      refine ⟨t, ?_, rfl, rfl, rfl, rfl, Or.inl rfl⟩
      rw [hr, hres, hjt]
  · -- empty-namespace types are untouched
    exact ensure_ns_empty_untouched reg r' acc hb he
  · -- single-sub-group entries are untouched
    intro k gs hkg hlen g hg j hj
    have hjmem : j ∉ allRenameIds
        ((acc.map (fun kg => kg.2)).filter (fun g => 1 < g.length)) := by
      intro hc
      obtain ⟨kg', hkg', hlen', hjfl'⟩ := mem_allRenameIds_elim acc j hc
      obtain ⟨p, hp⟩ := List.mem_iff_getElem?.mp hkg
      obtain ⟨q, hq⟩ := List.mem_iff_getElem?.mp hkg'
      have hLp : (acc.map (fun kg => kg.2.flatten))[p]? = some gs.flatten := by
        rw [List.getElem?_map, hp]; rfl
      have hLq : (acc.map (fun kg => kg.2.flatten))[q]? = some kg'.2.flatten := by
        rw [List.getElem?_map, hq]; rfl
      have hjgs : j ∈ gs.flatten := List.mem_flatten.mpr ⟨g, hg, hj⟩
      by_cases hpq : p = q
      · subst hpq
        rw [hp] at hq
        have heq : (k, gs) = kg' := by injection hq
        have hlen2 : 1 < gs.length := by
          rw [← heq] at hlen'
          simpa using hlen'
        omega
      · exact flatten_nodup_position (acc.map (fun kg => kg.2.flatten))
          (show ((acc.map (fun kg => kg.2.flatten)).flatten).Nodup from hnd)
          p q gs.flatten kg'.2.flatten hLp hLq hpq j hjgs hjfl'
    rw [hr, fold_rename_getElem?_not_mem _ reg.types j hjmem]

/-- C1 (amended): empty-namespace types are untouched, and two same-path
types placed in different structural sub-groups by the grouping phase end up
with distinct paths (distinct 1-based suffixes on the same base segment). -/
theorem C1_amended_theorem (reg r' : PortableRegistry) (acc : PathGroups)
    (hb : build_groups reg = some acc)
    (he : ensure_unique_type_paths reg = some r') :
    (∀ (j : Nat) (t : PortableType), reg.types[j]? = some t →
      nsEmpty t.ty.path = true → r'.types[j]? = some t) ∧
    (∀ (k : List String) (gs : List (List Nat)), (k, gs) ∈ acc → 1 < gs.length →
      ∀ (m m' : Nat) (g g' : List Nat), gs[m]? = some g → gs[m']? = some g' → m ≠ m' →
      ∀ (j j' : Nat), j ∈ g → j' ∈ g' →
      ∀ (tj tj' : PortableType), r'.types[j]? = some tj → r'.types[j']? = some tj' →
        tj.ty.path ≠ tj'.ty.path) := by
  have h2 := (ensure_eq_fold reg acc hb).symm.trans he
  have hr : r'.types = ((acc.map (fun kg => kg.2)).filter (fun g => 1 < g.length)).foldl
      (fun tys gs => rename_groups_from tys gs 1) reg.types := by
    injection h2 with h3
    rw [← h3]
  obtain ⟨hbound, hnd, hinv⟩ := build_groups_inv reg acc hb
  have hndneed := allRenameIds_need_nodup acc hnd
  refine ⟨ensure_ns_empty_untouched reg r' acc hb he, ?_⟩
  intro k gs hkg hlen m m' g g' hm hm' hmm j j' hj hj' tj tj' htj htj'
  -- the entry is on the renaming work-list
  have hgsneed : gs ∈ (acc.map (fun kg => kg.2)).filter (fun g => 1 < g.length) := by
    refine List.mem_filter.mpr ⟨List.mem_map.mpr ⟨(k, gs), hkg, rfl⟩, by simpa using hlen⟩
  obtain ⟨tpos, htpos⟩ := List.mem_iff_getElem?.mp hgsneed
  have hresj := fold_rename_getElem?_mem _ reg.types tpos gs m g j htpos hm hj hndneed
  have hresj' := fold_rename_getElem?_mem _ reg.types tpos gs m' g' j' htpos hm' hj' hndneed
  -- the original entries both carry the shared path `k`
  obtain ⟨hnsk, hall⟩ := hinv (k, gs) hkg
  obtain ⟨t0, ht0, hpath0⟩ := hall g (List.mem_iff_getElem?.mpr ⟨m, hm⟩) j hj
  obtain ⟨t1, ht1, hpath1⟩ := hall g' (List.mem_iff_getElem?.mpr ⟨m', hm'⟩) j' hj'
  have hk_ne : k ≠ [] := by
    intro hc
    rw [hc] at hnsk
    simp [nsEmpty] at hnsk
  have htjv : tj = applySuffix (1 + m) t0 := by
    rw [hr, hresj, ht0] at htj
    injection htj with h4
    exact h4.symm
  have htjv' : tj' = applySuffix (1 + m') t1 := by
    rw [hr, hresj', ht1] at htj'
    injection htj' with h4
    exact h4.symm
  subst htjv
  subst htjv'
  show renameLastSegment t0.ty.path (Nat.repr (1 + m))
      ≠ renameLastSegment t1.ty.path (Nat.repr (1 + m'))
  rw [hpath0, hpath1]
  conv_lhs => rw [← List.dropLast_append_getLast hk_ne]
  conv_rhs => rw [← List.dropLast_append_getLast hk_ne]
  rw [renameLastSegment_append, renameLastSegment_append]
  intro hcon
  have h5 := List.append_cancel_left hcon
  have h6 : k.getLast hk_ne ++ Nat.repr (1 + m) = k.getLast hk_ne ++ Nat.repr (1 + m') := by
    injection h5
  exact suffix_ne (k.getLast hk_ne) (by omega) h6

/-- Witness registry: one empty-namespace type plus two structurally distinct
types sharing the path `m::A`. -/
def regW : PortableRegistry :=
  ⟨[ ⟨0, ⟨["p"], [], .primitive .bool, []⟩⟩,
     ⟨1, ⟨["m", "A"], [], .primitive .bool, []⟩⟩,
     ⟨2, ⟨["m", "A"], [], .primitive .u32, []⟩⟩ ]⟩

/-- The groups computed for `regW`. -/
def accW : PathGroups := [(["m", "A"], [[1], [2]])]

/-- The renamed registry produced for `regW`. -/
def regWRenamed : PortableRegistry :=
  ⟨[ ⟨0, ⟨["p"], [], .primitive .bool, []⟩⟩,
     ⟨1, ⟨["m", "A1"], [], .primitive .bool, []⟩⟩,
     ⟨2, ⟨["m", "A2"], [], .primitive .u32, []⟩⟩ ]⟩

theorem C10_frame_effect_witness :
    regWRenamed.types[0]? = some ⟨0, ⟨["p"], [], .primitive .bool, []⟩⟩ :=
  (C10_frame_effect regW regWRenamed accW rfl rfl).2.1
    0 ⟨0, ⟨["p"], [], .primitive .bool, []⟩⟩ rfl rfl

theorem C1_amended_witness :
    (["m", "A1"] : List String) ≠ ["m", "A2"] :=
  (C1_amended_theorem regW regWRenamed accW rfl rfl).2
    ["m", "A"] [[1], [2]] (List.mem_cons_self _ _) (by decide)
    0 1 [1] [2] rfl rfl (by decide)
    1 2 (by decide) (by decide)
    ⟨1, ⟨["m", "A1"], [], .primitive .bool, []⟩⟩
    ⟨2, ⟨["m", "A2"], [], .primitive .u32, []⟩⟩ rfl rfl

/-! ### The transform engine (`description/src/transformer.rs`)

The `Transformer` owns a `RefCell<HashMap<u32, Cached<R>>>` cache and three
caller-supplied policies which receive `&Self` and may re-enter `resolve`,
mutating the cache through it.  In the model the cache is passed explicitly
and each policy is an arbitrary cache transformer `Cache R → Cache R × ...`:
its output cache stands for whatever nested `resolve` calls it performed (a
policy that performs none leaves the cache unchanged).  The immutable pieces
of `&Self` (the registry and the auxiliary state `S`) can be captured inside
the policy closures, so `S` is not modelled separately.  `resolve`
additionally returns the list of IDs the engine passed to `policy` (the
"compute" rule) during this call — pure instrumentation used to count real
computations; it does not influence any other output. -/

/-- Mirrors `enum Cached<Out>`. -/
inductive Cached (R : Type) where
  | recursive
  | computed (r : R)
deriving DecidableEq, Repr

/-- The session cache, a shadowing association list modelling the `HashMap`:
`cacheInsert` conses a binding, `cacheLookup` takes the newest one. -/
def Cache (R : Type) := List (Nat × Cached R)

instance (R : Type) [DecidableEq R] : DecidableEq (Cache R) :=
  inferInstanceAs (DecidableEq (List (Nat × Cached R)))

def cacheLookup {R : Type} (c : Cache R) (k : Nat) : Option (Cached R) :=
  (List.find? (fun p => p.1 == k) c).map (fun p => p.2)

def cacheInsert {R : Type} (c : Cache R) (k : Nat) (v : Cached R) : Cache R :=
  (k, v) :: c

/-- The transformer with its three policies (`policy`, `recurse_policy`,
`cache_hit_policy`) and registry.  Errors are `anyhow` errors, modelled as
strings and propagated verbatim. -/
structure Transformer (R : Type) where
  policy : Nat → Ty → Cache R → Cache R × Except String R
  recurse_policy : Nat → Ty → Cache R → Cache R × Option (Except String R)
  cache_hit_policy : Nat → Ty → R → Cache R → Cache R × Option (Except String R)
  registry : PortableRegistry

/-- The tail of `resolve` after the cache checks: mark the ID `Recursive`,
run `policy`, propagate its failure unchanged, store `Computed` on success. -/
def computeAndStore {R : Type} (t : Transformer R) (c : Cache R) (type_id : Nat)
    (ty : Ty) : Cache R × Except String R × List Nat :=
  let c1 := cacheInsert c type_id .recursive
  match t.policy type_id ty c1 with
  | (c2, .error e) => (c2, .error e, [type_id])
  | (c2, .ok r) => (cacheInsert c2 type_id (.computed r), .ok r, [type_id])

/-- Model of `Transformer::resolve`. -/
def Transformer.resolve {R : Type} (t : Transformer R) (c : Cache R) (type_id : Nat) :
    Cache R × Except String R × List Nat :=
  match t.registry.resolve type_id with
  | none => (c, .error ("Type with id " ++ toString type_id ++ " not found in registry"), [])
  | some ty =>
    match cacheLookup c type_id with
    | some .recursive =>
      match t.recurse_policy type_id ty c with
      | (c', some res) => (c', res, [])
      | (c', none) => computeAndStore t c' type_id ty
    | some (.computed repr) =>
      match t.cache_hit_policy type_id ty repr c with
      | (c', some res) => (c', res, [])
      | (c', none) => computeAndStore t c' type_id ty
    | none => computeAndStore t c type_id ty

/-- Mirrors `recursion_should_continue`: the default wrapper-shape heuristic. -/
def recursion_should_continue : TypeDef → Bool
  | .sequence _ => true
  | .array _ _ => true
  | .tuple _ => true
  | .compact _ => true
  | .composite _ => false
  | .primitive _ => false
  | .variant _ => false
  | .bitSequence _ _ => false

theorem cacheLookup_insert_self {R : Type} (c : Cache R) (k : Nat) (v : Cached R) :
    cacheLookup (cacheInsert c k v) k = some v := by
  simp [cacheLookup, cacheInsert]

theorem cacheLookup_insert_ne {R : Type} (c : Cache R) (k j : Nat) (v : Cached R)
    (h : j ≠ k) : cacheLookup (cacheInsert c k v) j = cacheLookup c j := by
  have hne : ((k, v).1 == j) = false := by
    simp only [beq_eq_false_iff_ne, ne_eq]
    omega
  simp [cacheLookup, cacheInsert, List.find?_cons, hne]

/-- A single-type registry for the transformer examples. -/
def regOne : PortableRegistry := ⟨[⟨0, ⟨[], [], .primitive .bool, []⟩⟩]⟩

/-! ### A recursion-transparent engine for the session-level claim

`Transformer.resolve` above abstracts each policy as a cache transformer:
the right level for the per-call bookkeeping of a single `resolve`, but it
hides the compute invocations a policy performs through nested
`engine.resolve` calls.  The at-most-once claim quantifies over exactly
those recursive sessions, so here the same `resolve` algorithm runs with
the policy bodies deep-embedded as programs: a body either finishes with a
value or an error (the `Ok`/`Err` results in Rust), or calls back into
`resolve` and continues with the nested result.  Every invocation of the
compute policy — nested ones included — now shows up in the
instrumentation log.  The `Option` decision of the recurse and cache-hit
policies is modelled as data: `none` falls through exactly like Rust's
`None`, `some prog` short-circuits with the program's result. -/

/-- A deep-embedded policy body. -/
inductive PolicyProg (R : Type) where
  | ret (r : R)
  | fail (e : String)
  | resolveThen (id : Nat) (k : Except String R → PolicyProg R)

/-- The transformer with deep-embedded policies. -/
structure TransformerP (R : Type) where
  policy : Nat → Ty → PolicyProg R
  recurse_policy : Nat → Ty → Option (PolicyProg R)
  cache_hit_policy : Nat → Ty → R → Option (PolicyProg R)
  registry : PortableRegistry

/-- Run a policy body against a resolver callback (the engine itself, at
the next fuel level), threading the cache and concatenating the logs of the
nested resolve calls. -/
def runProgWith {R : Type}
    (res : Cache R → Nat → Cache R × Except String R × List Nat) :
    PolicyProg R → Cache R → Cache R × Except String R × List Nat
  | .ret r, c => (c, .ok r, [])
  | .fail e, c => (c, .error e, [])
  | .resolveThen id k, c =>
    let r1 := res c id
    let r2 := runProgWith res (k r1.2.1) r1.1
    (r2.1, r2.2.1, r1.2.2 ++ r2.2.2)

/-- `computeAndStore` against an abstract runner: mark `Recursive`, run the
compute body (logging `type_id`), propagate failure unchanged, store
`Computed` on success. -/
def computeAndStoreWith {R : Type}
    (run : PolicyProg R → Cache R → Cache R × Except String R × List Nat)
    (prog : PolicyProg R) (c : Cache R) (type_id : Nat) :
    Cache R × Except String R × List Nat :=
  let c1 := cacheInsert c type_id .recursive
  match run prog c1 with
  | (c2, .error e, log) => (c2, .error e, type_id :: log)
  | (c2, .ok r, log) => (cacheInsert c2 type_id (.computed r), .ok r, type_id :: log)

/-- `Transformer::resolve` over deep-embedded policies.  `fuel` bounds the
nesting depth (where Rust would diverge, the model runs out of fuel; no
claim depends on the fuel value).  The log records every ID handed to the
compute policy, nested invocations included. -/
def resolveP {R : Type} (t : TransformerP R) :
    Nat → Cache R → Nat → Cache R × Except String R × List Nat
  | 0, c, _ => (c, .error "recursion depth exhausted", [])
  | fuel + 1, c, type_id =>
    match t.registry.resolve type_id with
    | none =>
      (c, .error ("Type with id " ++ toString type_id ++ " not found in registry"), [])
    | some ty =>
      match cacheLookup c type_id with
      | some .recursive =>
        match t.recurse_policy type_id ty with
        | some prog => runProgWith (fun c' id' => resolveP t fuel c' id') prog c
        | none =>
          computeAndStoreWith (runProgWith (fun c' id' => resolveP t fuel c' id'))
            (t.policy type_id ty) c type_id
      | some (.computed repr) =>
        match t.cache_hit_policy type_id ty repr with
        | some prog => runProgWith (fun c' id' => resolveP t fuel c' id') prog c
        | none =>
          computeAndStoreWith (runProgWith (fun c' id' => resolveP t fuel c' id'))
            (t.policy type_id ty) c type_id
      | none =>
        computeAndStoreWith (runProgWith (fun c' id' => resolveP t fuel c' id'))
          (t.policy type_id ty) c type_id

/-- One session: a sequence of top-level `resolve` calls against one shared
cache, concatenating the compute-invocation logs. -/
def runSessionP {R : Type} (t : TransformerP R) (fuel : Nat) :
    List Nat → Cache R → Cache R × List Nat
  | [], c => (c, [])
  | id :: rest, c =>
    let r := resolveP t fuel c id
    let r' := runSessionP t fuel rest r.1
    (r'.1, r.2.2 ++ r'.2)

/-- The engine-run invariant behind the at-most-once bound: cache entries
are never removed, every logged ID ends up cached, and an ID is logged at
most once — never if it was already cached at the start. -/
def EngOk {R : Type} (c : Cache R) (out : Cache R × Except String R × List Nat) : Prop :=
  (∀ k, (cacheLookup c k).isSome = true → (cacheLookup out.1 k).isSome = true) ∧
  (∀ k, k ∈ out.2.2 → (cacheLookup out.1 k).isSome = true) ∧
  (∀ k, out.2.2.count k ≤ if (cacheLookup c k).isSome then 0 else 1)

theorem EngOk_of_empty_log {R : Type} (c : Cache R) (r : Except String R) :
    EngOk c (c, r, []) := by
  refine ⟨fun k hk => hk, by simp, ?_⟩
  intro k
  cases (cacheLookup c k).isSome <;> simp

theorem EngOk.comp {R : Type} {c c1 c2 : Cache R} {r1 r2 r : Except String R}
    {L1 L2 : List Nat}
    (h1 : EngOk c (c1, r1, L1)) (h2 : EngOk c1 (c2, r2, L2)) :
    EngOk c (c2, r, L1 ++ L2) := by
  obtain ⟨m1, b1, cnt1⟩ := h1
  obtain ⟨m2, b2, cnt2⟩ := h2
  dsimp only at m1 b1 cnt1 m2 b2 cnt2 ⊢
  refine ⟨fun k hk => m2 k (m1 k hk), ?_, ?_⟩
  · intro k hk
    rcases List.mem_append.mp hk with h | h
    · exact m2 k (b1 k h)
    · exact b2 k h
  · intro k
    rw [List.count_append]
    by_cases hc : (cacheLookup c k).isSome = true
    · have e1 := cnt1 k
      rw [if_pos hc] at e1
      have e2 := cnt2 k
      rw [if_pos (m1 k hc)] at e2
      rw [if_pos hc]
      omega
    · have e1 := cnt1 k
      rw [if_neg hc] at e1
      rw [if_neg hc]
      by_cases hmem : k ∈ L1
      · have e2 := cnt2 k
        rw [if_pos (b1 k hmem)] at e2
        omega
      · have h0 : L1.count k = 0 := List.count_eq_zero.mpr hmem
        have e2 := cnt2 k
        have hb : L2.count k ≤ 1 := le_trans e2 (by split <;> omega)
        omega

theorem runProgWith_ok {R : Type}
    (res : Cache R → Nat → Cache R × Except String R × List Nat)
    (hres : ∀ c id, EngOk c (res c id)) :
    ∀ (prog : PolicyProg R) (c : Cache R), EngOk c (runProgWith res prog c) := by
  intro prog
  induction prog with
  | ret r => intro c; exact EngOk_of_empty_log c _
  | fail e => intro c; exact EngOk_of_empty_log c _
  | resolveThen id k ih =>
    intro c
    simp only [runProgWith]
    exact EngOk.comp (hres c id) (ih (res c id).2.1 (res c id).1)

theorem cacheLookup_insert_isSome {R : Type} (c : Cache R) (j k : Nat) (v : Cached R)
    (h : (cacheLookup c k).isSome = true) :
    (cacheLookup (cacheInsert c j v) k).isSome = true := by
  by_cases hkj : k = j
  · subst hkj
    rw [cacheLookup_insert_self]
    rfl
  · rw [cacheLookup_insert_ne c j k v hkj]
    exact h

theorem computeAndStoreWith_ok {R : Type}
    (run : PolicyProg R → Cache R → Cache R × Except String R × List Nat)
    (hrun : ∀ prog c, EngOk c (run prog c))
    (prog : PolicyProg R) (c : Cache R) (type_id : Nat)
    (hfresh : cacheLookup c type_id = none) :
    EngOk c (computeAndStoreWith run prog c type_id) := by
  have h1 := hrun prog (cacheInsert c type_id .recursive)
  simp only [computeAndStoreWith]
  rcases hr : run prog (cacheInsert c type_id .recursive) with ⟨c2, res, log⟩
  rw [hr] at h1
  obtain ⟨m1, b1, cnt1⟩ := h1
  dsimp only at m1 b1 cnt1
  have hmarked : (cacheLookup (cacheInsert c type_id (Cached.recursive (R := R)))
      type_id).isSome = true := by
    rw [cacheLookup_insert_self]
    rfl
  have hlog0 : log.count type_id = 0 := by
    have h2 := cnt1 type_id
    rw [if_pos hmarked] at h2
    omega
  have hcfalse : (cacheLookup c type_id).isSome = false := by
    rw [hfresh]
    rfl
  cases res with
  | error e =>
    refine ⟨?_, ?_, ?_⟩
    · intro k hk
      exact m1 k (cacheLookup_insert_isSome c type_id k _ hk)
    · intro k hk
      rcases List.mem_cons.mp hk with rfl | hkl
      · exact m1 k hmarked
      · exact b1 k hkl
    · intro k
      by_cases hk : k = type_id
      · subst hk
        rw [List.count_cons_self, hlog0, hcfalse, if_neg Bool.false_ne_true]
      · rw [List.count_cons_of_ne hk]
        have h2 := cnt1 k
        rw [cacheLookup_insert_ne c type_id k _ hk] at h2
        exact h2
  | ok v =>
    refine ⟨?_, ?_, ?_⟩
    · intro k hk
      exact cacheLookup_insert_isSome _ type_id k _
        (m1 k (cacheLookup_insert_isSome c type_id k _ hk))
    · intro k hk
      rcases List.mem_cons.mp hk with rfl | hkl
      · rw [cacheLookup_insert_self]
        rfl
      · exact cacheLookup_insert_isSome _ type_id k _ (b1 k hkl)
    · intro k
      by_cases hk : k = type_id
      · subst hk
        rw [List.count_cons_self, hlog0, hcfalse, if_neg Bool.false_ne_true]
      · rw [List.count_cons_of_ne hk]
        have h2 := cnt1 k
        rw [cacheLookup_insert_ne c type_id k _ hk] at h2
        exact h2

theorem resolveP_ok {R : Type} (t : TransformerP R)
    (hrec : ∀ id ty, (t.recurse_policy id ty).isSome = true)
    (hhit : ∀ id ty r, (t.cache_hit_policy id ty r).isSome = true) :
    ∀ (fuel : Nat) (c : Cache R) (id : Nat), EngOk c (resolveP t fuel c id) := by
  intro fuel
  induction fuel with
  | zero => intro c id; exact EngOk_of_empty_log c _
  | succ fuel ih =>
    intro c id
    have hrun : ∀ (prog : PolicyProg R) (c' : Cache R),
        EngOk c' (runProgWith (fun c'' id'' => resolveP t fuel c'' id'') prog c') :=
      runProgWith_ok _ (fun c'' id'' => ih c'' id'')
    rcases hres : t.registry.resolve id with _ | ty
    · simp only [resolveP, hres]
      exact EngOk_of_empty_log c _
    · rcases hcl : cacheLookup c id with _ | entry
      · simp only [resolveP, hres, hcl]
        exact computeAndStoreWith_ok _ hrun _ c id hcl
      · cases entry with
        | recursive =>
          obtain ⟨prog, hprog⟩ := Option.isSome_iff_exists.mp (hrec id ty)
          simp only [resolveP, hres, hcl, hprog]
          exact hrun prog c
        | computed r =>
          obtain ⟨prog, hprog⟩ := Option.isSome_iff_exists.mp (hhit id ty r)
          simp only [resolveP, hres, hcl, hprog]
          exact hrun prog c

theorem runSessionP_ok {R : Type} (t : TransformerP R)
    (hrec : ∀ id ty, (t.recurse_policy id ty).isSome = true)
    (hhit : ∀ id ty r, (t.cache_hit_policy id ty r).isSome = true) (fuel : Nat) :
    ∀ (ids : List Nat) (c : Cache R),
      EngOk c ((runSessionP t fuel ids c).1, Except.error "",
        (runSessionP t fuel ids c).2) := by
  intro ids
  induction ids with
  | nil => intro c; exact EngOk_of_empty_log c _
  | cons j rest ih =>
    intro c
    simp only [runSessionP]
    exact EngOk.comp (resolveP_ok t hrec hhit fuel c j) (ih (resolveP t fuel c j).1)

/-- A transformer whose cache-hit policy returns `None`, the documented way
to "sidestep recursion protection and let the transformer continue". -/
def tCounterP : TransformerP Nat where
  policy := fun _ _ => .ret 7
  recurse_policy := fun _ _ => some (.fail "cycle")
  cache_hit_policy := fun _ _ _ => none
  registry := regOne

/-- C2 counterexample: resolving ID 0 twice in one session invokes the
compute policy twice, because a cache-hit policy returning `None` falls
through to a fresh computation — so "at most one real computation per type
ID per session, no matter which values the recurse and cache-hit policies
return" is false. -/
theorem C2_counterexample :
    (runSessionP tCounterP 1 [0, 0] []).2.count 0 = 2 ∧
    ¬ ((runSessionP tCounterP 1 [0, 0] []).2.count 0 ≤ 1) := by
  constructor
  · rfl
  · decide

/-- C2 (amended): the compute policy is invoked at most once per type ID
over a whole session — counting the invocations reached through nested
`resolve` calls made from inside policy bodies, which may recurse
arbitrarily — provided the recurse and cache-hit policies always
short-circuit (never return `None`).  An entry, once written, is never
removed, so the mark-then-compute path for an ID executes at most once. -/
theorem C2_amended_theorem {R : Type} (t : TransformerP R)
    (hrec : ∀ id ty, (t.recurse_policy id ty).isSome = true)
    (hhit : ∀ id ty r, (t.cache_hit_policy id ty r).isSome = true)
    (fuel : Nat) (ids : List Nat) (id : Nat) :
    (runSessionP t fuel ids []).2.count id ≤ 1 := by
  have h := (runSessionP_ok t hrec hhit fuel ids []).2.2 id
  have h0 : (cacheLookup ([] : Cache R) id).isSome = false := rfl
  rw [h0, if_neg Bool.false_ne_true] at h
  exact h

/-- A transformer with short-circuiting recurse/cache-hit policies whose
compute body recursively resolves its own ID (the nested call is answered
by the recurse policy). -/
def tWellP : TransformerP Nat where
  policy := fun _ _ =>
    .resolveThen 0 (fun res =>
      match res with
      | .ok r => .ret r
      | .error _ => .ret 7)
  recurse_policy := fun _ _ => some (.ret 99)
  cache_hit_policy := fun _ _ r => some (.ret r)
  registry := regOne

theorem C2_amended_witness : (runSessionP tWellP 5 [0, 0] []).2.count 0 ≤ 1 :=
  C2_amended_theorem tWellP (fun _ _ => rfl) (fun _ _ _ => rfl) 5 [0, 0] 0


/-- C3: when the compute policy fails during `resolve(id)` on a fresh ID, the
error is returned to the caller unchanged (no wrapping), the cache keeps the
`Recursive` (in-progress) marker for `id` — given that the policy left that
entry as `resolve` placed it — and a subsequent `resolve(id)` on the
resulting cache dispatches to the recurse (cycle) policy: whatever result
that policy short-circuits with is returned without invoking compute. -/
theorem C3_error_propagation {R : Type} (t : Transformer R) (c : Cache R)
    (id : Nat) (ty : Ty)
    (hty : t.registry.resolve id = some ty)
    (hc : cacheLookup c id = none)
    (e : String) (c2 : Cache R)
    (hpol : t.policy id ty (cacheInsert c id .recursive) = (c2, .error e))
    (hkeep : cacheLookup c2 id = cacheLookup (cacheInsert c id .recursive) id) :
    t.resolve c id = (c2, .error e, [id]) ∧
    cacheLookup c2 id = some .recursive ∧
    (∀ (c3 : Cache R) (res : Except String R),
      t.recurse_policy id ty c2 = (c3, some res) → t.resolve c2 id = (c3, res, [])) := by
  have hmark : cacheLookup c2 id = some .recursive := by
    rw [hkeep, cacheLookup_insert_self]
  refine ⟨?_, hmark, ?_⟩
  · simp only [Transformer.resolve, hty, hc, computeAndStore, hpol]
  · intro c3 res hrp
    simp only [Transformer.resolve, hty, hmark, hrp]

/-- A transformer whose compute policy always fails. -/
def tFail : Transformer Nat where
  policy := fun _ _ c => (c, .error "boom")
  recurse_policy := fun _ _ c => (c, some (.ok 9))
  cache_hit_policy := fun _ _ r c => (c, some (.ok r))
  registry := regOne

theorem C3_error_propagation_witness :
    tFail.resolve [] 0 = ([(0, Cached.recursive)], .error "boom", [0]) ∧
    tFail.resolve [(0, Cached.recursive)] 0 = ([(0, Cached.recursive)], .ok 9, []) := by
  have h := C3_error_propagation tFail [] 0 ⟨[], [], .primitive .bool, []⟩
    rfl rfl "boom" [(0, Cached.recursive)] rfl rfl
  exact ⟨h.1, h.2.2 [(0, Cached.recursive)] (.ok 9) rfl⟩

/-! ### `create_composite_ir_kind` (`scale-typegen/src/typegen/mod.rs`)

The composite-kind constructor checks that a field list is empty, all-named
or all-unnamed, and otherwise fails with `InvalidFields` before building
anything.  The per-field work delegates to collaborators that are outside
the analyzed sources: `type_path_resolver.resolve_field_type_path` (plus its
`is_compact` query on the resulting path) and `syn::parse_str::<Ident>`;
these are abstracted as function parameters.  `type_params.mark_used` only
mutates the bookkeeping of generic-parameter usage, never the returned kind,
and is omitted.  The `InvalidFields` payload is Rust's
`format!("{:?}", fields)` debug string; the model uses the derived `Repr`
rendering, whose exact text is not semantically relevant. -/

/-- Mirrors `TypegenError` (payload types of external errors simplified to
strings). -/
inductive TypegenError where
  | synParseError (msg : String)
  | invalidFields (s : String)
  | invalidType (s : String)
  | compactPathNone
  | decodedBitsPathNone
  | typeNotFound (id : Nat)
  | invalidSubstitute (msg : String)
deriving DecidableEq, Repr

/-- Mirrors `CompositeFieldIR` over an abstract resolved-path type `P`. -/
structure CompositeFieldIR (P : Type) where
  type_path : P
  is_compact : Bool
  is_boxed : Bool
deriving DecidableEq, Repr

/-- Mirrors `CompositeIRKind` (`Ident`s become strings). -/
inductive CompositeIRKind (P : Type) where
  | noFields
  | named (fields : List (String × CompositeFieldIR P))
  | unnamed (fields : List (CompositeFieldIR P))
deriving DecidableEq, Repr

/-- Model of `TypeGenerator::create_composite_ir_kind`.  `field.name.getD ""`
stands for the `unwrap()` that cannot fail in the all-named branch. -/
def create_composite_ir_kind {P : Type}
    (resolve_field_type_path : Nat → Option String → Except TypegenError P)
    (is_compact : P → Bool)
    (parse_ident : String → Except TypegenError String)
    (fields : List Field) : Except TypegenError (CompositeIRKind P) :=
  if fields.isEmpty then .ok .noFields
  else
    let all_fields_named := fields.all (fun f => f.name.isSome)
    let all_fields_unnamed := fields.all (fun f => f.name.isNone)
    if !(all_fields_named || all_fields_unnamed) then
      .error (.invalidFields (reprStr fields))
    else if all_fields_named then
      (fields.mapM (fun (field : Field) => do
        let ident ← parse_ident (field.name.getD "")
        let path ← resolve_field_type_path field.ty field.type_name
        let isc := is_compact path
        let isb := (field.type_name.map
          (fun (e : String) => decide (("Box<".toList : List Char) <:+: e.toList))).getD false
        pure (ident, CompositeFieldIR.mk path isc isb))).map CompositeIRKind.named
    else
      (fields.mapM (fun (field : Field) => do
        let path ← resolve_field_type_path field.ty field.type_name
        let isc := is_compact path
        let isb := (field.type_name.map
          (fun (e : String) => decide (("Box<".toList : List Char) <:+: e.toList))).getD false
        pure (CompositeFieldIR.mk path isc isb))).map CompositeIRKind.unnamed

/-- C8: a non-empty field list mixing named and unnamed fields makes
`create_composite_ir_kind` fail with `InvalidFields` — for every choice of
path resolver and ident parser, so no partial result is ever produced. -/
theorem C8_mixed_fields_invalid {P : Type}
    (resolve_field_type_path : Nat → Option String → Except TypegenError P)
    (is_compact : P → Bool)
    (parse_ident : String → Except TypegenError String)
    (fields : List Field)
    (hne : fields ≠ [])
    (hnamed : ∃ f ∈ fields, f.name.isSome)
    (hunnamed : ∃ f ∈ fields, f.name.isNone) :
    create_composite_ir_kind resolve_field_type_path is_compact parse_ident fields
      = .error (.invalidFields (reprStr fields)) := by
  cases fields with
  | nil => exact absurd rfl hne
  | cons f fs =>
    have h1 : (f :: fs).all (fun x => x.name.isSome) = false := by
      obtain ⟨g, hg, hgn⟩ := hunnamed
      refine List.all_eq_false.mpr ⟨g, hg, ?_⟩
      rw [Option.isNone_iff_eq_none.mp hgn]
      simp
    have h2 : (f :: fs).all (fun x => x.name.isNone) = false := by
      obtain ⟨g, hg, hgn⟩ := hnamed
      refine List.all_eq_false.mpr ⟨g, hg, ?_⟩
      obtain ⟨v, hv⟩ := Option.isSome_iff_exists.mp hgn
      rw [hv]
      simp
    simp only [create_composite_ir_kind]
    rw [h1, h2]
    rfl

/-- A concrete mixed field list: one named, one unnamed field. -/
def mixedFields : List Field :=
  [⟨some "a", 0, none, []⟩, ⟨none, 1, none, []⟩]

theorem C8_mixed_fields_invalid_witness :
    create_composite_ir_kind
      (fun (_ : Nat) (_ : Option String) => (.ok () : Except TypegenError Unit))
      (fun _ => false) (fun s => .ok s) mixedFields
      = .error (.invalidFields (reprStr mixedFields)) :=
  C8_mixed_fields_invalid _ _ _ mixedFields (by decide)
    ⟨⟨some "a", 0, none, []⟩, by decide, by decide⟩
    ⟨⟨none, 1, none, []⟩, by decide, by decide⟩

end ScaleTypegen
